import Mathlib

/-!
# Verification of the LearnTA simplification and guard-relaxation core

This file gives a shallow embedding, in Lean 4, of the parts of LearnTA that
the specification's claims are about:

* the guard/constraint algebra (`Constraint`, `satisfiable`, `conjunction`,
  `isWeaker`, `unionHull`) — the C++ headers defining these are not part of
  the provided sources, so they are modelled from the specification (§3, §4.1):
  constraints are normalized single-clock inequalities `x ▷ c` over
  non-negative real-valued clocks, and the operations are given their
  documented semantics via per-clock tightest-bound computations;
* the automaton model and `TAState::deterministic`,
  `TAState::mergeNondeterministicBranching` (translated from
  `src/timed_automaton.cc`);
* the imprecise-clock handler `ImpreciseClockHandler::handleOne` and the
  per-action scan of `ImpreciseClockHandler::run` (translated from
  `include/imprecise_clock_handler.hh`); the `NeighborConditions` operations
  it calls are not in the provided sources and are abstracted as a record of
  operations (`NeighborOps`).
-/

namespace LearnTA

/-- Comparison operator of a normalized single-clock constraint `x ▷ c`.
`lt`/`le` are upper bounds, `gt`/`ge` are lower bounds. -/
inductive Odr where
  | lt | le | ge | gt
deriving DecidableEq, Repr

/-- Modelled from the spec: a constraint is a normalized single-clock
inequality `x_i ▷ c` carrying the clock index, the comparison and the
(integer) bound. -/
structure Constraint where
  x : Nat
  odr : Odr
  c : Int
deriving DecidableEq, Repr

/-- A constraint is an upper bound when its comparison is `<` or `≤`
(`Constraint::isUpperBound` in the C++ sources). -/
def Constraint.isUpperBound (ct : Constraint) : Bool :=
  match ct.odr with
  | .lt => true
  | .le => true
  | .ge => false
  | .gt => false

/-- A guard is a finite set (list) of constraints, read conjunctively. -/
abbrev Guard := List Constraint

/-- Semantics of one constraint at a clock valuation. -/
def Constraint.sat (ct : Constraint) (v : Nat → ℚ) : Prop :=
  match ct.odr with
  | .lt => v ct.x < (ct.c : ℚ)
  | .le => v ct.x ≤ (ct.c : ℚ)
  | .ge => (ct.c : ℚ) ≤ v ct.x
  | .gt => (ct.c : ℚ) < v ct.x

instance (ct : Constraint) (v : Nat → ℚ) : Decidable (ct.sat v) := by
  unfold Constraint.sat
  cases ct.odr <;> infer_instance

/-- Semantics of a guard: the conjunction of its constraints. -/
def satG (g : Guard) (v : Nat → ℚ) : Prop :=
  ∀ ct ∈ g, ct.sat v

instance (g : Guard) (v : Nat → ℚ) : Decidable (satG g v) :=
  List.decidableBAll _ g

/-- Conjunction of two guards is the union of their constraint sets
(spec §4.1). -/
def conjunction (g1 g2 : Guard) : Guard := g1 ++ g2

/-- The tighter (stronger) of two lower bounds `(c, strict)`; a larger
constant is tighter, and at equal constants the strict bound is tighter. -/
def tighterLower (a b : Int × Bool) : Int × Bool :=
  if a.1 < b.1 then b else if b.1 < a.1 then a else (a.1, a.2 || b.2)

/-- The tighter (stronger) of two upper bounds `(c, strict)`; a smaller
constant is tighter, and at equal constants the strict bound is tighter. -/
def tighterUpper (a b : Int × Bool) : Int × Bool :=
  if a.1 < b.1 then a else if b.1 < a.1 then b else (a.1, a.2 || b.2)

/-- Tightest lower bound a guard imposes on a clock.  The pair `(c, s)`
reads `x > c` when `s` and `x ≥ c` otherwise; clocks are non-negative, so
the default bound is `x ≥ 0`. -/
def lowerBound (g : Guard) (x : Nat) : Int × Bool :=
  g.foldl (fun acc ct =>
    if ct.x = x then
      match ct.odr with
      | .ge => tighterLower acc (ct.c, false)
      | .gt => tighterLower acc (ct.c, true)
      | _ => acc
    else acc) (0, false)

/-- Tightest upper bound a guard imposes on a clock (`none` = unbounded).
The pair `(c, s)` reads `x < c` when `s` and `x ≤ c` otherwise. -/
def upperBound (g : Guard) (x : Nat) : Option (Int × Bool) :=
  g.foldl (fun acc ct =>
    if ct.x = x then
      match ct.odr with
      | .lt => some (match acc with
                     | none => (ct.c, true)
                     | some a => tighterUpper a (ct.c, true))
      | .le => some (match acc with
                     | none => (ct.c, false)
                     | some a => tighterUpper a (ct.c, false))
      | _ => acc
    else acc) none

/-- A single clock's interval, given by its tightest bounds, is non-empty. -/
def clockSat (l : Int × Bool) (u : Option (Int × Bool)) : Bool :=
  match u with
  | none => true
  | some (uc, us) => l.1 < uc || (l.1 = uc && !l.2 && !us)

/-- The clocks a guard mentions. -/
def clocksOf (g : Guard) : List Nat :=
  (g.map Constraint.x).dedup

/-- Modelled from the spec: `satisfiable(guard)` decides whether the
conjunction has a non-empty solution set over non-negative clock values
(spec §4.1 delegates this to zone emptiness; for normalized single-clock
constraints it reduces to per-clock interval non-emptiness). -/
def satisfiable (g : Guard) : Bool :=
  (clocksOf g).all (fun x => clockSat (lowerBound g x) (upperBound g x))

/-- Does the upper bound `u` entail the upper-bound constraint `x ▷ c`
(`▷` strict when `strictTarget`) on a non-empty interval? -/
def impliesUpper (u : Int × Bool) (c : Int) (strictTarget : Bool) : Bool :=
  u.1 < c || (u.1 = c && (u.2 || !strictTarget))

/-- Does the lower bound `l` entail the lower-bound constraint `x ▷ c`
(`▷` strict when `strictTarget`) on a non-empty interval? -/
def impliesLower (l : Int × Bool) (c : Int) (strictTarget : Bool) : Bool :=
  c < l.1 || (l.1 = c && (l.2 || !strictTarget))

/-- Is the constraint `ct` entailed by the guard `g`'s tightest bounds on
`ct`'s clock? -/
def impliedBy (g : Guard) (ct : Constraint) : Bool :=
  match ct.odr with
  | .le => (match upperBound g ct.x with
            | none => false
            | some u => impliesUpper u ct.c false)
  | .lt => (match upperBound g ct.x with
            | none => false
            | some u => impliesUpper u ct.c true)
  | .ge => impliesLower (lowerBound g ct.x) ct.c false
  | .gt => impliesLower (lowerBound g ct.x) ct.c true

/-- Modelled from the spec: `isWeaker(gA, gB)` is true iff every valuation
satisfying `gB` also satisfies `gA` (spec §4.1).  Decided by checking that
`gB` is unsatisfiable or that each constraint of `gA` is entailed by `gB`'s
tightest per-clock bounds. -/
def isWeaker (gA gB : Guard) : Bool :=
  !satisfiable gB || gA.all (impliedBy gB)

/-- The weaker of two lower bounds (smaller constant; at equal constants the
non-strict bound is weaker). -/
def weakerLower (a b : Int × Bool) : Int × Bool :=
  if a.1 < b.1 then a else if b.1 < a.1 then b else (a.1, a.2 && b.2)

/-- The weaker of two upper bounds (larger constant; at equal constants the
non-strict bound is weaker). -/
def weakerUpper (a b : Int × Bool) : Int × Bool :=
  if a.1 < b.1 then b else if b.1 < a.1 then a else (a.1, a.2 && b.2)

/-- Constraints encoding a lower bound on clock `x`; the trivial bound
`x ≥ 0` (or weaker) produces no constraint. -/
def lowerToConstraints (x : Nat) (l : Int × Bool) : Guard :=
  if 0 < l.1 then [⟨x, if l.2 then Odr.gt else Odr.ge, l.1⟩]
  else if l.1 = 0 && l.2 then [⟨x, Odr.gt, 0⟩]
  else []

/-- Constraints encoding an upper bound on clock `x`; `none` (unbounded)
produces no constraint. -/
def upperToConstraints (x : Nat) (u : Option (Int × Bool)) : Guard :=
  match u with
  | none => []
  | some (c, s) => [⟨x, if s then Odr.lt else Odr.le, c⟩]

/-- Modelled from the spec: `unionHull(list-of-guards)` is the smallest
guard over-approximating the union of the given guards' solution sets
(spec §4.1): per clock, the weakest lower bound and the weakest upper bound
across the guards. -/
def unionHull (gs : List Guard) : Guard :=
  match gs with
  | [] => []
  | g0 :: rest =>
    (clocksOf (g0 :: rest).flatten).flatMap (fun x =>
      let low := rest.foldl (fun a g => weakerLower a (lowerBound g x)) (lowerBound g0 x)
      let up := rest.foldl (fun a g =>
        match a, upperBound g x with
        | some a', some b => some (weakerUpper a' b)
        | _, _ => none) (upperBound g0 x)
      lowerToConstraints x low ++ upperToConstraints x up)

/-- A reset map entry assigns a clock either a rational constant
(`Sum.inl`, the C++ `double` alternative, variant index 0) or the current
value of another clock (`Sum.inr`, variant index 1). -/
abbrev Resets := List (Nat × (ℚ ⊕ Nat))

/-- A transition `(target state, reset map, guard)`; states live in an arena
indexed by `Nat`, so the non-owning target pointer becomes an index. -/
structure TATransition where
  target : Nat
  resetVars : Resets
  guard : Guard
deriving DecidableEq, Repr

/-- Modelled from the spec: `TATransition::impreciseConstantAssignSize`
(not among the provided sources) counts the reset entries assigning an
imprecise constant, i.e. a constant that is not an integer (spec §4.2:
"count of imprecise constant assignments ... imprecision introduced by
constant resets"). -/
def TATransition.impreciseConstantAssignSize (rs : Resets) : Nat :=
  rs.countP (fun p =>
    match p.2 with
    | Sum.inl q => !(decide (q = (⌊q⌋ : ℚ)))
    | Sum.inr _ => false)

/-- An automaton state: the accepting flag and the outgoing-transition table
keyed by action symbol. -/
structure TAState where
  isMatch : Bool
  next : List (Char × List TATransition)
deriving DecidableEq, Repr

/-- Worker for `TAState.deterministic`: `prev` holds the transitions already
scanned; the current transition is checked against all of them
(the C++ `std::any_of(transitions.begin(), it, ...)`). -/
def detGo (prev : List TATransition) : List TATransition → Bool
  | [] => true
  | t :: rest =>
    if prev.any (fun p => satisfiable (conjunction p.guard t.guard)) then false
    else detGo (prev ++ [t]) rest

/-- Translation of `TAState::deterministic` (timed_automaton.cc): for every
action, no transition's guard is jointly satisfiable with an earlier one's.
The C++ method is `const`: it only reads the state. -/
def TAState.deterministic (s : TAState) : Bool :=
  s.next.all (fun p => detGo [] p.2)

/-- Worker for `removeWeaker`, phase (1) of
`TAState::mergeNondeterministicBranching`: the current transition `t` is
dropped when some transition in the current container (already-kept ones in
`kept` plus `t :: rest`) differs from `t` as a value, has a weaker-or-equal
guard, and has the same target (the C++
`*it2 != transition && isWeaker(transition.guard, it2->guard) && transition.target == it2->target`). -/
def removeWeakerGo (kept : List TATransition) : List TATransition → List TATransition
  | [] => kept
  | t :: rest =>
    if (kept ++ t :: rest).any
        (fun o => decide (o ≠ t) && isWeaker o.guard t.guard && decide (o.target = t.target)) then
      removeWeakerGo kept rest
    else
      removeWeakerGo (kept ++ [t]) rest

/-- Phase (1) of `TAState::mergeNondeterministicBranching`: remove
transitions with weaker guards (lines 121–129 of timed_automaton.cc). -/
def removeWeaker (ts : List TATransition) : List TATransition :=
  removeWeakerGo [] ts

/-- Inner loop of phase (2) of `TAState::mergeNondeterministicBranching`
(`it3` scanning the transitions after `it2`): when the guards' conjunction is
satisfiable, the targets must agree on accepting status (`assert`, a fatal
invariant violation modelled by `none`); the transition with the larger
imprecise-constant-assignment count supplies target and reset map, the guard
becomes the union hull, and the displaced transition is erased. -/
def mergeInner (isMatchOf : Nat → Bool) :
    TATransition → List TATransition → Option (TATransition × List TATransition)
  | cur, [] => some (cur, [])
  | cur, t :: rest =>
    if satisfiable (conjunction cur.guard t.guard) then
      if isMatchOf cur.target = isMatchOf t.target then
        let cur' :=
          if TATransition.impreciseConstantAssignSize cur.resetVars <
             TATransition.impreciseConstantAssignSize t.resetVars then
            { cur with resetVars := t.resetVars, target := t.target }
          else cur
        mergeInner isMatchOf { cur' with guard := unionHull [cur'.guard, t.guard] } rest
      else none
    else
      match mergeInner isMatchOf cur rest with
      | none => none
      | some (c, r) => some (c, t :: r)

/-- The rest list returned by `mergeInner` is no longer than its input. -/
theorem mergeInner_length (isMatchOf : Nat → Bool) :
    ∀ (ts : List TATransition) (cur cur' : TATransition) (r : List TATransition),
      mergeInner isMatchOf cur ts = some (cur', r) → r.length ≤ ts.length := by
  intro ts
  induction ts with
  | nil =>
    intro cur cur' r h
    simp only [mergeInner, Option.some.injEq, Prod.mk.injEq] at h
    simp [← h.2]
  | cons t rest ih =>
    intro cur cur' r h
    simp only [mergeInner] at h
    split at h
    · split at h
      · exact le_trans (ih _ _ _ h) (Nat.le_succ _)
      · exact absurd h (by simp)
    · cases hrec : mergeInner isMatchOf cur rest with
      | none => rw [hrec] at h; exact absurd h (by simp)
      | some p =>
        rw [hrec] at h
        obtain ⟨c, r'⟩ := p
        simp only [Option.some.injEq, Prod.mk.injEq] at h
        rw [← h.2]
        simpa using ih _ _ _ hrec

/-- Outer loop of phase (2) of `TAState::mergeNondeterministicBranching`
(`it2` advancing over the surviving transitions). -/
def phase2Fuel (isMatchOf : Nat → Bool) : Nat → List TATransition → Option (List TATransition)
  | _, [] => some []
  | 0, _ :: _ => none
  | fuel + 1, t :: rest =>
    match mergeInner isMatchOf t rest with
    | none => none
    | some (t', rest') =>
      match phase2Fuel isMatchOf fuel rest' with
      | none => none
      | some out => some (t' :: out)

/-- The fuel argument of `phase2Fuel` is irrelevant once it covers the list
length (`mergeInner` never lengthens the remaining list). -/
theorem phase2Fuel_congr (isMatchOf : Nat → Bool) :
    ∀ (f1 f2 : Nat) (ts : List TATransition),
      ts.length ≤ f1 → ts.length ≤ f2 →
        phase2Fuel isMatchOf f1 ts = phase2Fuel isMatchOf f2 ts := by
  intro f1
  induction f1 with
  | zero =>
    intro f2 ts h1 _
    rw [Nat.le_zero, List.length_eq_zero] at h1
    subst h1
    cases f2 <;> rfl
  | succ f1 ih =>
    intro f2 ts h1 h2
    match ts, f2 with
    | [], f2 => cases f2 <;> rfl
    | t :: rest, f2 + 1 =>
      rw [phase2Fuel, phase2Fuel]
      cases hmi : mergeInner isMatchOf t rest with
      | none => rfl
      | some p =>
        obtain ⟨t', rest'⟩ := p
        dsimp only
        have hlen := mergeInner_length isMatchOf rest t t' rest' hmi
        rw [List.length_cons] at h1 h2
        rw [ih f2 rest' (le_trans hlen (Nat.succ_le_succ_iff.mp h1))
            (le_trans hlen (Nat.succ_le_succ_iff.mp h2))]

/-- Outer loop of phase (2) of `TAState::mergeNondeterministicBranching`
(`it2` advancing over the surviving transitions); the erase loop shrinks the
list at every merge, so the list length bounds the recursion depth. -/
def phase2Go (isMatchOf : Nat → Bool) (ts : List TATransition) :
    Option (List TATransition) :=
  phase2Fuel isMatchOf ts.length ts

/-- Translation of `TAState::mergeNondeterministicBranching` restricted to
one action's transition list: phase (1) then phase (2). -/
def mergeNDBAction (isMatchOf : Nat → Bool) (ts : List TATransition) :
    Option (List TATransition) :=
  phase2Go isMatchOf (removeWeaker ts)

/-- Translation of `TAState::mergeNondeterministicBranching`
(timed_automaton.cc, lines 118–165): the per-action simplification applied to
every entry of the transition table; `none` models the fatal assertion
failure. `isMatchOf` reads the accepting flag of a target state in the
arena. -/
def TAState.mergeNondeterministicBranching (isMatchOf : Nat → Bool) (s : TAState) :
    Option TAState :=
  match s.next.mapM (fun p => (mergeNDBAction isMatchOf p.2).map (fun ts => (p.1, ts))) with
  | none => none
  | some next' => some { s with next := next' }

/-- Phase (1) only removes transitions: its output is a sublist of its
input (`kept` accumulates the survivors). -/
theorem removeWeakerGo_sublist : ∀ (rest kept : List TATransition),
    (removeWeakerGo kept rest).Sublist (kept ++ rest) := by
  intro rest
  induction rest with
  | nil => intro kept; simp [removeWeakerGo]
  | cons t rest ih =>
    intro kept
    rw [removeWeakerGo]
    split
    · exact (ih kept).trans (by simp [List.Sublist.append_left, List.sublist_cons_self])
    · have := ih (kept ++ [t])
      rw [List.append_assoc] at this
      simpa using this

/-- Complete description of phase (1) on a two-transition list: the first
transition is dropped when the second is value-distinct, has a
weaker-or-equal guard (no strictness test) and the same target; otherwise
the second is dropped under the symmetric condition; otherwise both stay. -/
theorem removeWeaker_pair (t1 t2 : TATransition) :
    removeWeaker [t1, t2] =
      if t2 ≠ t1 ∧ isWeaker t2.guard t1.guard = true ∧ t2.target = t1.target then [t2]
      else if t1 ≠ t2 ∧ isWeaker t1.guard t2.guard = true ∧ t1.target = t2.target then [t1]
      else [t1, t2] := by
  by_cases h1 : t2 ≠ t1 ∧ isWeaker t2.guard t1.guard = true ∧ t2.target = t1.target
  · rw [if_pos h1]
    rw [removeWeaker, removeWeakerGo]
    rw [if_pos (by
      simp only [List.nil_append, List.any_cons, List.any_nil, Bool.or_false]
      rw [Bool.or_eq_true]
      right
      rw [Bool.and_eq_true, Bool.and_eq_true]
      exact ⟨⟨decide_eq_true h1.1, h1.2.1⟩, decide_eq_true h1.2.2⟩)]
    rw [removeWeakerGo]
    rw [if_neg (by simp)]
    rw [removeWeakerGo]
    rfl
  · rw [if_neg h1]
    rw [removeWeaker, removeWeakerGo]
    rw [if_neg (by
      simp only [List.nil_append, List.any_cons, List.any_nil, Bool.or_false]
      intro hcontra
      rw [Bool.or_eq_true] at hcontra
      rcases hcontra with hc | hc
      · simp at hc
      · rw [Bool.and_eq_true, Bool.and_eq_true] at hc
        exact h1 ⟨of_decide_eq_true hc.1.1, hc.1.2, of_decide_eq_true hc.2⟩)]
    by_cases h2 : t1 ≠ t2 ∧ isWeaker t1.guard t2.guard = true ∧ t1.target = t2.target
    · rw [if_pos h2]
      rw [removeWeakerGo]
      rw [if_pos (by
        simp only [List.any_cons, List.any_nil, Bool.or_false, List.cons_append, List.nil_append]
        rw [Bool.or_eq_true]
        left
        rw [Bool.and_eq_true, Bool.and_eq_true]
        exact ⟨⟨decide_eq_true h2.1, h2.2.1⟩, decide_eq_true h2.2.2⟩)]
      rw [removeWeakerGo]
      rfl
    · rw [if_neg h2]
      rw [removeWeakerGo]
      rw [if_neg (by
        simp only [List.any_cons, List.any_nil, Bool.or_false, List.cons_append, List.nil_append]
        intro hcontra
        rw [Bool.or_eq_true] at hcontra
        rcases hcontra with hc | hc
        · rw [Bool.and_eq_true, Bool.and_eq_true] at hc
          exact h2 ⟨of_decide_eq_true hc.1.1, hc.1.2, of_decide_eq_true hc.2⟩
        · simp at hc)]
      rw [removeWeakerGo]
      rfl

/-- C3 counterexample.  Two transitions with the same target whose guards
`x0 ≤ 1` and `x0 ≤ 1 ∧ x0 ≤ 2` are weaker than each other in both
directions (merely equivalent): phase (1) nevertheless drops the first one,
because the dropping condition has no strictness test. -/
theorem removeWeaker_drops_equivalent :
    isWeaker [⟨0, Odr.le, 1⟩] [⟨0, Odr.le, 1⟩, ⟨0, Odr.le, 2⟩] = true ∧
    isWeaker [⟨0, Odr.le, 1⟩, ⟨0, Odr.le, 2⟩] [⟨0, Odr.le, 1⟩] = true ∧
    removeWeaker [⟨0, [], [⟨0, Odr.le, 1⟩]⟩, ⟨0, [], [⟨0, Odr.le, 1⟩, ⟨0, Odr.le, 2⟩]⟩] =
      [⟨0, [], [⟨0, Odr.le, 1⟩, ⟨0, Odr.le, 2⟩]⟩] := by decide

/-- C3 (amended).  Phase (1) only removes transitions (the survivors form a
sublist of the input), and on a pair a transition is dropped iff the other
transition is value-distinct, has the same target and a weaker-or-equal
guard (`isWeaker(other, this)` with no strictness requirement); equivalent
but value-distinct transitions are therefore also dropped. -/
theorem removeWeaker_nonstrict_drop (t1 t2 : TATransition) :
    (∀ ts : List TATransition, (removeWeaker ts).Sublist ts) ∧
    removeWeaker [t1, t2] =
      (if t2 ≠ t1 ∧ isWeaker t2.guard t1.guard = true ∧ t2.target = t1.target then [t2]
       else if t1 ≠ t2 ∧ isWeaker t1.guard t2.guard = true ∧ t1.target = t2.target then [t1]
       else [t1, t2]) :=
  ⟨fun ts => by simpa using removeWeakerGo_sublist ts [], removeWeaker_pair t1 t2⟩

/-- Phase (2) on the empty transition list. -/
theorem phase2Go_nil (m : Nat → Bool) : phase2Go m [] = some [] := rfl

/-- Phase (2) unfolding when the inner scan succeeds. -/
theorem phase2Go_cons_some (m : Nat → Bool) (t t' : TATransition)
    (rest rest' out : List TATransition)
    (hmi : mergeInner m t rest = some (t', rest'))
    (hout : phase2Go m rest' = some out) :
    phase2Go m (t :: rest) = some (t' :: out) := by
  have hlen := mergeInner_length m rest t t' rest' hmi
  rw [phase2Go, List.length_cons, phase2Fuel, hmi]
  dsimp only
  rw [phase2Fuel_congr m rest.length rest'.length rest' hlen le_rfl]
  rw [← phase2Go, hout]

/-- Phase (2) unfolding when the inner scan hits the fatal assertion. -/
theorem phase2Go_cons_none (m : Nat → Bool) (t : TATransition) (rest : List TATransition)
    (hmi : mergeInner m t rest = none) :
    phase2Go m (t :: rest) = none := by
  rw [phase2Go, List.length_cons, phase2Fuel, hmi]

/-- The inner scan with nothing left to merge. -/
theorem mergeInner_nil (m : Nat → Bool) (t : TATransition) :
    mergeInner m t [] = some (t, []) := by
  rw [mergeInner]

/-- Phase (2) leaves a single transition unchanged. -/
theorem phase2Go_singleton (m : Nat → Bool) (t : TATransition) :
    phase2Go m [t] = some [t] :=
  phase2Go_cons_some m t t [] [] [] (mergeInner_nil m t) (phase2Go_nil m)

/-- Merging one pair of jointly satisfiable transitions with agreeing
accepting status: the guard becomes the union hull, and the transition with
the larger imprecise-constant-assignment count supplies target and resets. -/
theorem mergeInner_pair (m : Nat → Bool) (t1 t2 : TATransition)
    (h1 : satisfiable (conjunction t1.guard t2.guard) = true)
    (h2 : m t1.target = m t2.target) :
    mergeInner m t1 [t2] = some
      (⟨(if TATransition.impreciseConstantAssignSize t1.resetVars <
            TATransition.impreciseConstantAssignSize t2.resetVars then t2.target else t1.target),
        (if TATransition.impreciseConstantAssignSize t1.resetVars <
            TATransition.impreciseConstantAssignSize t2.resetVars then t2.resetVars else t1.resetVars),
        unionHull [t1.guard, t2.guard]⟩, []) := by
  simp only [mergeInner]
  rw [if_pos h1, if_pos h2]
  by_cases hsz : TATransition.impreciseConstantAssignSize t1.resetVars <
      TATransition.impreciseConstantAssignSize t2.resetVars
  · rw [if_pos hsz, if_pos hsz, if_pos hsz]
  · rw [if_neg hsz, if_neg hsz, if_neg hsz]

/-- C2.  A pair of remaining transitions with jointly satisfiable guards and
agreeing accepting status is merged into one transition: the guard becomes
`unionHull` of the two guards and target/resets come from the transition
with the larger imprecise-constant-assignment count; moreover, on the
spec's example, `unionHull({x ≤ 2, 1 ≤ x ≤ 3})` is `x ≤ 3` and a state with
those two transitions to the same accepting target retains exactly one
transition guarded `x ≤ 3` after `mergeNondeterministicBranching()`. -/
theorem mergeNDB_merges_satisfiable_pair (m : Nat → Bool) (t1 t2 : TATransition)
    (h1 : satisfiable (conjunction t1.guard t2.guard) = true)
    (h2 : m t1.target = m t2.target) :
    phase2Go m [t1, t2] = some
      [⟨(if TATransition.impreciseConstantAssignSize t1.resetVars <
            TATransition.impreciseConstantAssignSize t2.resetVars then t2.target else t1.target),
        (if TATransition.impreciseConstantAssignSize t1.resetVars <
            TATransition.impreciseConstantAssignSize t2.resetVars then t2.resetVars else t1.resetVars),
        unionHull [t1.guard, t2.guard]⟩] ∧
    unionHull [[⟨0, Odr.le, 2⟩], [⟨0, Odr.ge, 1⟩, ⟨0, Odr.le, 3⟩]] = [⟨0, Odr.le, 3⟩] ∧
    TAState.mergeNondeterministicBranching (fun _ => true)
        ⟨false, [('a', [⟨5, [], [⟨0, Odr.le, 2⟩]⟩, ⟨5, [], [⟨0, Odr.ge, 1⟩, ⟨0, Odr.le, 3⟩]⟩])]⟩ =
      some ⟨false, [('a', [⟨5, [], [⟨0, Odr.le, 3⟩]⟩])]⟩ := by
  refine ⟨?_, by decide, by decide⟩
  exact phase2Go_cons_some m t1 _ [t2] [] []
    (mergeInner_pair m t1 t2 h1 h2) (phase2Go_nil m)

/-- Witness for C2: the spec's example pair, merged concretely. -/
theorem mergeNDB_merges_satisfiable_pair_witness :
    phase2Go (fun _ => true)
        [⟨5, [], [⟨0, Odr.le, 2⟩]⟩, ⟨5, [], [⟨0, Odr.ge, 1⟩, ⟨0, Odr.le, 3⟩]⟩] =
      some [⟨5, [], [⟨0, Odr.le, 3⟩]⟩] :=
  ((mergeNDB_merges_satisfiable_pair (fun _ => true)
      ⟨5, [], [⟨0, Odr.le, 2⟩]⟩ ⟨5, [], [⟨0, Odr.ge, 1⟩, ⟨0, Odr.le, 3⟩]⟩
      (by decide) (by decide)).1).trans (by decide)

/-- C5.  Two same-action transitions with jointly satisfiable guards whose
targets disagree on accepting status make `mergeNondeterministicBranching`
abort (the fatal `assert`, modelled by `none`); when the targets agree the
merge proceeds and the operation succeeds. -/
theorem mergeNDB_mismatch_fatal (m : Nat → Bool) (t1 t2 : TATransition)
    (h1 : satisfiable (conjunction t1.guard t2.guard) = true) :
    (m t1.target ≠ m t2.target → mergeNDBAction m [t1, t2] = none) ∧
    (m t1.target = m t2.target → (mergeNDBAction m [t1, t2]).isSome = true) := by
  constructor
  · intro hne
    have htar : t1.target ≠ t2.target := fun h => hne (congrArg m h)
    have hrw : removeWeaker [t1, t2] = [t1, t2] := by
      rw [removeWeaker_pair]
      rw [if_neg (fun hc => htar hc.2.2.symm), if_neg (fun hc => htar hc.2.2)]
    rw [mergeNDBAction, hrw]
    apply phase2Go_cons_none
    simp only [mergeInner]
    rw [if_pos h1, if_neg hne]
  · intro heq
    rw [mergeNDBAction, removeWeaker_pair]
    split_ifs
    · rw [phase2Go_singleton]
      rfl
    · rw [phase2Go_singleton]
      rfl
    · rw [phase2Go_cons_some m t1 _ [t2] [] []
        (mergeInner_pair m t1 t2 h1 heq) (phase2Go_nil m)]
      rfl

/-- Witness for C5: transitions with trivially satisfiable guards to targets
0 and 1, with only target 0 accepting: the merge aborts. -/
theorem mergeNDB_mismatch_fatal_witness :
    mergeNDBAction (fun i => decide (i = 0)) [⟨0, [], []⟩, ⟨1, [], []⟩] = none :=
  (mergeNDB_mismatch_fatal (fun i => decide (i = 0)) ⟨0, [], []⟩ ⟨1, [], []⟩
    (by decide)).1 (by decide)

/-- C10.  When the first transition's imprecise-constant-assignment count is
at least the second's (ties included), the merged transition keeps the first
transition's target and reset map; the second transition's target and reset
map are adopted only when its count is strictly larger. -/
theorem mergeInner_tiebreak (m : Nat → Bool) (t1 t2 : TATransition)
    (h1 : satisfiable (conjunction t1.guard t2.guard) = true)
    (h2 : m t1.target = m t2.target) :
    (TATransition.impreciseConstantAssignSize t2.resetVars ≤
        TATransition.impreciseConstantAssignSize t1.resetVars →
      mergeInner m t1 [t2] =
        some (⟨t1.target, t1.resetVars, unionHull [t1.guard, t2.guard]⟩, [])) ∧
    (TATransition.impreciseConstantAssignSize t1.resetVars <
        TATransition.impreciseConstantAssignSize t2.resetVars →
      mergeInner m t1 [t2] =
        some (⟨t2.target, t2.resetVars, unionHull [t1.guard, t2.guard]⟩, [])) := by
  constructor
  · intro hle
    rw [mergeInner_pair m t1 t2 h1 h2]
    rw [if_neg (Nat.not_lt.mpr hle), if_neg (Nat.not_lt.mpr hle)]
  · intro hlt
    rw [mergeInner_pair m t1 t2 h1 h2]
    rw [if_pos hlt, if_pos hlt]

/-- Witness for C10: a tie (both counts 0) keeps the first transition's
target 3 and empty reset map. -/
theorem mergeInner_tiebreak_witness :
    mergeInner (fun _ => true) ⟨3, [], [⟨0, Odr.le, 1⟩]⟩ [⟨4, [], [⟨0, Odr.le, 2⟩]⟩] =
      some (⟨3, [], [⟨0, Odr.le, 2⟩]⟩, []) :=
  ((mergeInner_tiebreak (fun _ => true) ⟨3, [], [⟨0, Odr.le, 1⟩]⟩ ⟨4, [], [⟨0, Odr.le, 2⟩]⟩
    (by decide) (by decide)).1 (by decide)).trans (by decide)

/-- Correctness of the scanning loop of `TAState::deterministic`: the worker
returns true iff the remaining transitions are pairwise non-overlapping and
none of them overlaps an already-scanned one. -/
theorem detGo_true_iff :
    ∀ (rest prev : List TATransition),
      detGo prev rest = true ↔
        (List.Pairwise (fun a b => satisfiable (conjunction a.guard b.guard) = false) rest ∧
         ∀ p ∈ prev, ∀ t ∈ rest, satisfiable (conjunction p.guard t.guard) = false) := by
  intro rest
  induction rest with
  | nil =>
    intro prev
    simp [detGo]
  | cons t rest ih =>
    intro prev
    rw [detGo]
    by_cases hany : (prev.any fun p => satisfiable (conjunction p.guard t.guard)) = true
    · rw [if_pos hany]
      rw [List.any_eq_true] at hany
      obtain ⟨p, hp, hsat⟩ := hany
      constructor
      · intro hfalse
        exact (Bool.false_ne_true hfalse).elim
      · rintro ⟨-, hall⟩
        have := hall p hp t (List.mem_cons_self t rest)
        rw [hsat] at this
        cases this
    · rw [if_neg hany]
      rw [ih (prev ++ [t])]
      have hprev : ∀ p ∈ prev, satisfiable (conjunction p.guard t.guard) = false := by
        intro p hp
        rw [Bool.eq_false_iff]
        intro hc
        exact hany (List.any_eq_true.mpr ⟨p, hp, hc⟩)
      constructor
      · rintro ⟨hpw, hall⟩
        refine ⟨List.pairwise_cons.mpr ⟨fun u hu => hall t (by simp) u hu, hpw⟩, ?_⟩
        intro p hp u hu
        rcases List.mem_cons.mp hu with rfl | hu'
        · exact hprev p hp
        · exact hall p (by simp [hp]) u hu'
      · rintro ⟨hpw, hall⟩
        rw [List.pairwise_cons] at hpw
        refine ⟨hpw.2, ?_⟩
        intro p hp u hu
        rcases List.mem_append.mp hp with hp' | hp'
        · exact hall p hp' u (List.mem_cons_of_mem t hu)
        · rw [List.mem_singleton] at hp'
          subst hp'
          exact hpw.1 u hu

/-- C4.  `deterministic()` returns false iff some action has two distinct
outgoing transitions (two positions in its transition list) whose guards'
conjunction is satisfiable — and, being a pure function of the state (the
C++ method is `const`), it does not modify it.  Concretely, two same-action
transitions guarded `x ≤ 1` and `x ≥ 1` give false; guards `x < 1` and
`x ≥ 1` give true. -/
theorem deterministic_spec :
    (∀ s : TAState, s.deterministic = false ↔
      ∃ p ∈ s.next, ∃ i j : Fin p.2.length, (i : ℕ) < (j : ℕ) ∧
        satisfiable (conjunction (p.2.get i).guard (p.2.get j).guard) = true) ∧
    TAState.deterministic
        ⟨false, [('a', [⟨0, [], [⟨0, Odr.le, 1⟩]⟩, ⟨1, [], [⟨0, Odr.ge, 1⟩]⟩])]⟩ = false ∧
    TAState.deterministic
        ⟨false, [('a', [⟨0, [], [⟨0, Odr.lt, 1⟩]⟩, ⟨1, [], [⟨0, Odr.ge, 1⟩]⟩])]⟩ = true := by
  refine ⟨?_, by decide, by decide⟩
  intro s
  rw [TAState.deterministic]
  rw [Bool.eq_false_iff]
  rw [Ne, List.all_eq_true]
  constructor
  · intro hnot
    push_neg at hnot
    obtain ⟨p, hp, hfail⟩ := hnot
    refine ⟨p, hp, ?_⟩
    have hnotpw : ¬ List.Pairwise
        (fun a b => satisfiable (conjunction a.guard b.guard) = false) p.2 := by
      intro hpw
      exact hfail ((detGo_true_iff p.2 []).mpr ⟨hpw, by simp⟩)
    rw [List.pairwise_iff_get] at hnotpw
    push_neg at hnotpw
    obtain ⟨i, j, hij, hR⟩ := hnotpw
    refine ⟨i, j, hij, ?_⟩
    cases h : satisfiable (conjunction (p.2.get i).guard (p.2.get j).guard)
    · exact absurd h hR
    · rfl
  · rintro ⟨p, hp, i, j, hij, hsat⟩ hall
    have hgo := hall p hp
    rw [detGo_true_iff] at hgo
    have hpw := hgo.1
    rw [List.pairwise_iff_get] at hpw
    have hcontra := hpw i j hij
    rw [hsat] at hcontra
    cases hcontra

/-- Abstraction of the `NeighborConditions` operations used by
`ImpreciseClockHandler::handleOne` and `run` (neighbor_conditions.hh is not
among the provided sources); `N` is the type of neighbor conditions and the
fields are the member functions the handler calls. -/
structure NeighborOps (N : Type) where
  matchTransition : N → TATransition → Bool
  toRelaxedGuard : N → Guard
  getClockSize : N → Nat
  impreciseClocks : N → List Nat
  makeAfterExternalTransition : N → Resets → Nat → N
  successor : N → Char → N

/-- The result of one `handleOne` call: the optional successor
`(state, neighbor)` pair, the transitions appended to the side buffer
`newTransitions`, and the updated `matchBounded` / `noMatch` flags (passed
by reference in the C++). -/
structure HandleOneResult (N : Type) where
  result : Option (Nat × N)
  newTransitions : List TATransition
  matchBounded : Bool
  noMatch : Bool
deriving Repr

/-- The "internal reset-to-zero of the newest clock" shape test of
`handleOne` (imprecise_clock_handler.hh lines 54–57): the reset map has
exactly one entry, targeting the clock index equal to the neighborhood's
clock count, holding the constant 0. -/
def isInternal {N : Type} (ops : NeighborOps N) (neighbor : N) (t : TATransition) : Bool :=
  match t.resetVars with
  | [(c, Sum.inl q)] => decide (c = ops.getClockSize neighbor) && decide (q = 0)
  | _ => false

/-- The clock count relevant at `t`'s target (imprecise_clock_handler.hh
lines 62–69): one plus the largest clock index referenced by any guard of any
transition leaving the target state. -/
def targetClockSize (states : List TAState) (t : TATransition) : Nat :=
  (states.getD t.target ⟨false, []⟩).next.foldl
    (fun acc p => p.2.foldl
      (fun acc2 tr => tr.guard.foldl (fun a ct => max a (ct.x + 1)) acc2) acc) 0

/-- The relaxed guard `handleOne` works with: `neighbor.toRelaxedGuard()`,
with all upper-bound constraints removed when the matched guard has no upper
bound (imprecise_clock_handler.hh lines 38–45). -/
def relaxedGuardOf {N : Type} (ops : NeighborOps N) (neighbor : N) (t : TATransition) : Guard :=
  if t.guard.any Constraint.isUpperBound then ops.toRelaxedGuard neighbor
  else (ops.toRelaxedGuard neighbor).filter (fun ct => !ct.isUpperBound)

/-- The check of `handleOne` lines 79–92: every imprecise clock is reset
(to another clock's value or to an integer constant) and is not itself read
as the source of a reset. -/
def impreciseResolved {N : Type} (ops : NeighborOps N) (neighbor : N) (t : TATransition) : Bool :=
  (ops.impreciseClocks neighbor).all (fun clock =>
    (t.resetVars.any (fun p =>
      decide (p.1 = clock) &&
      (p.2.isRight || (match p.2 with
                       | Sum.inl q => decide (q = (⌊q⌋ : ℚ))
                       | Sum.inr _ => false)))) &&
    !(t.resetVars.any (fun p => decide (p.2 = Sum.inr clock))))

/-- Translation of `ImpreciseClockHandler::handleOne`
(imprecise_clock_handler.hh lines 24–109).  The C++ mutates `newTransitions`,
`matchBounded` and `noMatch` through references; here the appended
transitions and the updated flags are returned. -/
def handleOne {N : Type} (ops : NeighborOps N) (states : List TAState)
    (neighbor : N) (t : TATransition) (neighborSuccessor : N)
    (matchBounded noMatch : Bool) : HandleOneResult N :=
  if ops.matchTransition neighbor t then
    let upperBounded := t.guard.any Constraint.isUpperBound
    let matchBounded' := matchBounded || upperBounded
    let relaxedGuard := relaxedGuardOf ops neighbor t
    if isWeaker relaxedGuard t.guard && !(isWeaker t.guard relaxedGuard) then
      let newTransitions := [⟨t.target, t.resetVars, relaxedGuard⟩]
      if isInternal ops neighbor t then
        ⟨some (t.target, neighborSuccessor), newTransitions, matchBounded', false⟩
      else
        let tcs := targetClockSize states t
        if tcs ≤ t.resetVars.length && t.resetVars.all (fun p => p.2.isLeft) then
          ⟨none, newTransitions, matchBounded', false⟩
        else if impreciseResolved ops neighbor t then
          ⟨none, newTransitions, matchBounded', false⟩
        else
          ⟨some (t.target, ops.makeAfterExternalTransition neighbor t.resetVars tcs),
           newTransitions, matchBounded', false⟩
    else ⟨none, [], matchBounded', false⟩
  else ⟨none, [], matchBounded, noMatch⟩

/-- The scan of one action's transition list inside `ImpreciseClockHandler::run`
(lines 151–157): call `handleOne` on each transition in order, accumulating
the staged `newTransitions`, the produced successor pairs, and the flags. -/
def scanTransitions {N : Type} (ops : NeighborOps N) (states : List TAState)
    (neighbor neighborSuccessor : N) :
    List TATransition → Bool → Bool → List TATransition × List (Nat × N) × Bool × Bool
  | [], mb, nm => ([], [], mb, nm)
  | t :: rest, mb, nm =>
    let r := handleOne ops states neighbor t neighborSuccessor mb nm
    let rec_ := scanTransitions ops states neighbor neighborSuccessor rest r.matchBounded r.noMatch
    (r.newTransitions ++ rec_.1,
     (match r.result with | some p => [p] | none => []) ++ rec_.2.1,
     rec_.2.2.1, rec_.2.2.2)

/-- One pass over the entries of the scanned state's transition table
(`for (auto &[action, transitions] : state->next)`, run lines 149–159):
entry `pos` is scanned with the neighbor successor for its action and then
spliced with the staged transitions; later entries see the updated arena. -/
def scanEntries {N : Type} (ops : NeighborOps N) (idx : Nat) (neighbor : N) :
    Nat → Nat → List TAState → Bool → Bool →
    List TAState × List (Nat × N) × Bool × Bool
  | _, 0, states, mb, nm => (states, [], mb, nm)
  | pos, rem + 1, states, mb, nm =>
    let s := states.getD idx ⟨false, []⟩
    match s.next.get? pos with
    | none => (states, [], mb, nm)
    | some (a, ts) =>
      let nsucc := ops.successor neighbor a
      let r := scanTransitions ops states neighbor nsucc ts mb nm
      let s' := { s with next := s.next.set pos (a, ts ++ r.1) }
      let states' := states.set idx s'
      let rest := scanEntries ops idx neighbor (pos + 1) rem states' r.2.2.1 r.2.2.2
      (rest.1, r.2.1 ++ rest.2.1, rest.2.2.1, rest.2.2.2)

/-- One iteration of the inner do-loop of `ImpreciseClockHandler::run`
(lines 147–159, without the final `successorAssign`): `matchBounded` starts
false, `noMatch` is carried across iterations, and every action entry of the
scanned state is processed in order. -/
def scanStateOnce {N : Type} (ops : NeighborOps N) (states : List TAState)
    (idx : Nat) (neighbor : N) (noMatch : Bool) :
    List TAState × List (Nat × N) × Bool × Bool :=
  scanEntries ops idx neighbor 0 ((states.getD idx ⟨false, []⟩).next.length)
    states false noMatch

/-- Characterization of the transitions `handleOne` stages: either none, or
exactly the synthesized transition `(t.target, t.resetVars, relaxedGuard)`,
and in the latter case the neighbor matched and the relaxed guard passed the
strict two-sided `isWeaker` test. -/
theorem handleOne_newTransitions_eq {N : Type} (ops : NeighborOps N)
    (states : List TAState) (n : N) (t : TATransition) (nsucc : N) (mb nm : Bool) :
    (handleOne ops states n t nsucc mb nm).newTransitions = [] ∨
    ((handleOne ops states n t nsucc mb nm).newTransitions =
        [⟨t.target, t.resetVars, relaxedGuardOf ops n t⟩] ∧
      ops.matchTransition n t = true ∧
      isWeaker (relaxedGuardOf ops n t) t.guard = true ∧
      isWeaker t.guard (relaxedGuardOf ops n t) = false) := by
  by_cases hm : ops.matchTransition n t = true
  · by_cases hacc :
        (isWeaker (relaxedGuardOf ops n t) t.guard &&
          !isWeaker t.guard (relaxedGuardOf ops n t)) = true
    · have hPair := hacc
      rw [Bool.and_eq_true, Bool.not_eq_true'] at hPair
      have hNT : (handleOne ops states n t nsucc mb nm).newTransitions =
          [⟨t.target, t.resetVars, relaxedGuardOf ops n t⟩] := by
        simp only [handleOne, hm, hacc, if_true]
        split
        · rfl
        · split
          · rfl
          · split <;> rfl
      exact Or.inr ⟨hNT, hm, hPair.1, hPair.2⟩
    · have hNT : (handleOne ops states n t nsucc mb nm).newTransitions = [] := by
        simp only [Bool.not_eq_true] at hacc
        simp [handleOne, hm, hacc]
      exact Or.inl hNT
  · have hNT : (handleOne ops states n t nsucc mb nm).newTransitions = [] := by
      simp only [Bool.not_eq_true] at hm
      simp [handleOne, hm]
    exact Or.inl hNT

/-- C1.  Whenever the neighbor condition matches the transition's guard, a
relaxed transition is staged by `handleOne` only if
`isWeaker(relaxedGuard, t.guard)` holds and `isWeaker(t.guard, relaxedGuard)`
does not; in particular no staged transition has a guard equivalent to `t`'s
under the two-sided `isWeaker` test. -/
theorem handleOne_emits_only_strictly_weaker {N : Type} (ops : NeighborOps N)
    (states : List TAState) (n : N) (t : TATransition) (nsucc : N) (mb nm : Bool)
    (hmatch : ops.matchTransition n t = true) :
    ∀ tr' ∈ (handleOne ops states n t nsucc mb nm).newTransitions,
      isWeaker tr'.guard t.guard = true ∧ isWeaker t.guard tr'.guard = false := by
  intro tr' htr
  rcases handleOne_newTransitions_eq ops states n t nsucc mb nm with h | ⟨h, _, h1, h2⟩
  · rw [h] at htr
    exact absurd htr (List.not_mem_nil tr')
  · rw [h] at htr
    rw [List.mem_singleton] at htr
    subst htr
    exact ⟨h1, h2⟩

/-- Concrete neighbor-condition operations used by the witnesses: every
transition matches, the relaxed guard, clock size and imprecise-clock set
are fixed, and successor constructions are the identity. -/
def constOps (rg : Guard) (cs : Nat) (ic : List Nat) : NeighborOps Nat :=
  ⟨fun _ _ => true, fun _ => rg, fun _ => cs, fun _ => ic, fun n _ _ => n, fun n _ => n⟩

/-- Witness for C1: a concrete matched transition with guard `x0 ≤ 1` and
relaxed guard `x0 ≤ 2` is staged, and the staged guard is strictly weaker
both ways of the test. -/
theorem handleOne_emits_only_strictly_weaker_witness :
    (⟨0, [], [⟨0, Odr.le, 2⟩]⟩ : TATransition) ∈
      (handleOne (constOps [⟨0, Odr.le, 2⟩] 5 []) [] 0
        ⟨0, [], [⟨0, Odr.le, 1⟩]⟩ 0 false true).newTransitions ∧
    isWeaker [⟨0, Odr.le, 2⟩] [⟨0, Odr.le, 1⟩] = true ∧
    isWeaker [⟨0, Odr.le, 1⟩] [⟨0, Odr.le, 2⟩] = false := by
  refine ⟨by decide, ?_⟩
  exact handleOne_emits_only_strictly_weaker (constOps [⟨0, Odr.le, 2⟩] 5 []) [] 0
    ⟨0, [], [⟨0, Odr.le, 1⟩]⟩ 0 false true (by decide)
    ⟨0, [], [⟨0, Odr.le, 2⟩]⟩ (by decide)

/-- C6.  For every matched transition whose guard contains no upper-bound
constraint, every transition staged by `handleOne` has a guard with no
upper-bound constraint: all upper bounds are stripped from the result of
`toRelaxedGuard()`, so relaxation never introduces an upper bound the
original guard did not have. -/
theorem handleOne_preserves_unboundedness {N : Type} (ops : NeighborOps N)
    (states : List TAState) (n : N) (t : TATransition) (nsucc : N) (mb nm : Bool)
    (hmatch : ops.matchTransition n t = true)
    (hnoUB : t.guard.any Constraint.isUpperBound = false) :
    ∀ tr' ∈ (handleOne ops states n t nsucc mb nm).newTransitions,
      tr'.guard.any Constraint.isUpperBound = false := by
  intro tr' htr
  rcases handleOne_newTransitions_eq ops states n t nsucc mb nm with h | ⟨h, _⟩
  · rw [h] at htr
    exact absurd htr (List.not_mem_nil tr')
  · rw [h] at htr
    rw [List.mem_singleton] at htr
    subst htr
    show (relaxedGuardOf ops n t).any Constraint.isUpperBound = false
    rw [relaxedGuardOf, if_neg (by rw [hnoUB]; exact Bool.false_ne_true)]
    rw [Bool.eq_false_iff]
    intro hcontra
    rw [List.any_eq_true] at hcontra
    obtain ⟨ct, hmem, hub⟩ := hcontra
    rw [List.mem_filter] at hmem
    rw [hub] at hmem
    simp at hmem

/-- Witness for C6: a matched transition guarded `x0 ≥ 2` (no upper bound)
whose relaxed guard `x0 ≥ 1, x0 ≤ 5` is accepted; the staged transition's
guard carries no upper bound. -/
theorem handleOne_preserves_unboundedness_witness :
    (⟨0, [], [⟨0, Odr.ge, 1⟩]⟩ : TATransition) ∈
      (handleOne (constOps [⟨0, Odr.ge, 1⟩, ⟨0, Odr.le, 5⟩] 5 []) [] 0
        ⟨0, [], [⟨0, Odr.ge, 2⟩]⟩ 0 false true).newTransitions ∧
    ([⟨0, Odr.ge, 1⟩] : Guard).any Constraint.isUpperBound = false := by
  refine ⟨by decide, ?_⟩
  exact handleOne_preserves_unboundedness
    (constOps [⟨0, Odr.ge, 1⟩, ⟨0, Odr.le, 5⟩] 5 []) [] 0
    ⟨0, [], [⟨0, Odr.ge, 2⟩]⟩ 0 false true (by decide) (by decide)
    ⟨0, [], [⟨0, Odr.ge, 1⟩]⟩ (by decide)

/-- C7.  A matched and accepted transition of the internal shape — its reset
map is exactly one entry assigning the constant 0 to the clock whose index
equals the neighbor condition's clock count — makes `handleOne` propagate
exactly the pair `(t.target, neighborSuccessor)`; no other successor
construction is performed for it. -/
theorem handleOne_internal_propagates_successor {N : Type} (ops : NeighborOps N)
    (states : List TAState) (n : N) (t : TATransition) (nsucc : N) (mb nm : Bool)
    (hmatch : ops.matchTransition n t = true)
    (hreset : t.resetVars = [(ops.getClockSize n, Sum.inl 0)])
    (hacc1 : isWeaker (relaxedGuardOf ops n t) t.guard = true)
    (hacc2 : isWeaker t.guard (relaxedGuardOf ops n t) = false) :
    (handleOne ops states n t nsucc mb nm).result = some (t.target, nsucc) ∧
    (handleOne ops states n t nsucc mb nm).newTransitions =
      [⟨t.target, t.resetVars, relaxedGuardOf ops n t⟩] := by
  have hint : isInternal ops n t = true := by
    rw [isInternal, hreset]
    simp
  have hcond : (isWeaker (relaxedGuardOf ops n t) t.guard &&
      !isWeaker t.guard (relaxedGuardOf ops n t)) = true := by
    rw [hacc1, hacc2]
    rfl
  constructor
  · simp only [handleOne, hmatch, hcond, hint, if_true]
  · simp only [handleOne, hmatch, hcond, hint, if_true]

/-- Witness for C7: a transition with sole reset `(clockSize, 0)` matched by
the neighbor, with an accepted relaxation, propagates the precomputed
successor (here the successor neighbor is the concrete value 7). -/
theorem handleOne_internal_propagates_successor_witness :
    (handleOne (constOps [⟨0, Odr.le, 2⟩] 1 []) [] 0
      ⟨3, [(1, Sum.inl 0)], [⟨0, Odr.le, 1⟩]⟩ 7 false true).result = some (3, 7) := by
  exact (handleOne_internal_propagates_successor (constOps [⟨0, Odr.le, 2⟩] 1 []) [] 0
    ⟨3, [(1, Sum.inl 0)], [⟨0, Odr.le, 1⟩]⟩ 7 false true
    (by decide) (by decide) (by decide) (by decide)).1

/-- C8.  A matched, accepted, external (non-internal-shape) transition that
resets every currently-imprecise clock of the neighbor condition to an exact
integer constant, none of those clocks being read as the source of another
reset, produces no successor pair: the propagation of imprecision stops. -/
theorem handleOne_external_resolved_stops {N : Type} (ops : NeighborOps N)
    (states : List TAState) (n : N) (t : TATransition) (nsucc : N) (mb nm : Bool)
    (hmatch : ops.matchTransition n t = true)
    (hext : isInternal ops n t = false)
    (hacc1 : isWeaker (relaxedGuardOf ops n t) t.guard = true)
    (hacc2 : isWeaker t.guard (relaxedGuardOf ops n t) = false)
    (hres : ∀ clock ∈ ops.impreciseClocks n,
      (∃ p ∈ t.resetVars, p.1 = clock ∧ ∃ q : ℚ, p.2 = Sum.inl q ∧ q = (⌊q⌋ : ℚ)) ∧
      (∀ p ∈ t.resetVars, p.2 ≠ Sum.inr clock)) :
    (handleOne ops states n t nsucc mb nm).result = none := by
  have hcond : (isWeaker (relaxedGuardOf ops n t) t.guard &&
      !isWeaker t.guard (relaxedGuardOf ops n t)) = true := by
    rw [hacc1, hacc2]
    rfl
  have hresolved : impreciseResolved ops n t = true := by
    rw [impreciseResolved, List.all_eq_true]
    intro clock hclock
    obtain ⟨⟨p, hp, hp1, q, hq, hqint⟩, hnotread⟩ := hres clock hclock
    rw [Bool.and_eq_true]
    constructor
    · rw [List.any_eq_true]
      refine ⟨p, hp, ?_⟩
      rw [Bool.and_eq_true]
      refine ⟨by simp [hp1], ?_⟩
      rw [Bool.or_eq_true]
      right
      rw [hq]
      exact decide_eq_true hqint
    · rw [Bool.not_eq_true']
      rw [Bool.eq_false_iff]
      intro hcontra
      rw [List.any_eq_true] at hcontra
      obtain ⟨p', hp', hp'eq⟩ := hcontra
      rw [decide_eq_true_eq] at hp'eq
      exact hnotread p' hp' hp'eq
  simp only [handleOne]
  rw [if_pos hmatch, if_pos hcond, if_neg (by rw [hext]; exact Bool.false_ne_true)]
  split <;> simp_all

/-- Witness for C8: the neighbor's sole imprecise clock 0 is reset to the
integer constant 1 and never read; the external transition yields no
successor pair. -/
theorem handleOne_external_resolved_stops_witness :
    (handleOne (constOps [⟨0, Odr.le, 2⟩] 5 [0])
      [⟨false, []⟩, ⟨true, [('b', [⟨0, [], [⟨3, Odr.le, 9⟩]⟩])]⟩] 0
      ⟨1, [(0, Sum.inl 1)], [⟨0, Odr.le, 1⟩]⟩ 0 false true).result = none := by
  exact handleOne_external_resolved_stops (constOps [⟨0, Odr.le, 2⟩] 5 [0])
    [⟨false, []⟩, ⟨true, [('b', [⟨0, [], [⟨3, Odr.le, 9⟩]⟩])]⟩] 0
    ⟨1, [(0, Sum.inl 1)], [⟨0, Odr.le, 1⟩]⟩ 0 false true
    (by decide) (by decide) (by decide) (by decide)
    (by
      intro clock hclock
      simp only [constOps, List.mem_singleton] at hclock
      subst hclock
      constructor
      · exact ⟨(0, Sum.inl 1), List.mem_singleton.mpr rfl, rfl, 1, rfl, by decide⟩
      · intro p hp
        rw [List.mem_singleton] at hp
        subst hp
        decide)

/-- Index arithmetic for the state arena: setting a state and reading it
back with a default yields the new state. -/
theorem getD_set_self (l : List TAState) (i : Nat) (x d : TAState) (h : i < l.length) :
    (l.set i x).getD i d = x := by
  unfold List.getD
  rw [List.get?_set_eq_of_lt x h]
  rfl

theorem scanTransitions_emitted {N : Type} (ops : NeighborOps N) (states : List TAState)
    (n nsucc : N) :
    ∀ (ts : List TATransition) (mb nm : Bool),
      ∀ tr' ∈ (scanTransitions ops states n nsucc ts mb nm).1, ∃ t ∈ ts,
        ops.matchTransition n t = true ∧
        isWeaker (relaxedGuardOf ops n t) t.guard = true ∧
        isWeaker t.guard (relaxedGuardOf ops n t) = false ∧
        tr' = ⟨t.target, t.resetVars, relaxedGuardOf ops n t⟩ := by
  intro ts
  induction ts with
  | nil =>
    intro mb nm tr' h
    simp [scanTransitions] at h
  | cons t rest ih =>
    intro mb nm tr' h
    simp only [scanTransitions] at h
    rcases List.mem_append.mp h with hl | hr
    · rcases handleOne_newTransitions_eq ops states n t nsucc mb nm with he | ⟨he, hm, h1, h2⟩
      · rw [he] at hl
        cases hl
      · rw [he, List.mem_singleton] at hl
        exact ⟨t, List.mem_cons_self t rest, hm, h1, h2, hl⟩
    · obtain ⟨u, hu, hrest⟩ := ih _ _ tr' hr
      exact ⟨u, List.mem_cons_of_mem t hu, hrest⟩

theorem scanEntries_frame {N : Type} (ops : NeighborOps N) (idx : Nat) (n : N) :
    ∀ (rem pos : Nat) (states : List TAState) (mb nm : Bool),
      (∀ j, j ≠ idx → (scanEntries ops idx n pos rem states mb nm).1.get? j = states.get? j) ∧
      (∀ k, k < pos →
        ((scanEntries ops idx n pos rem states mb nm).1.getD idx ⟨false, []⟩).next.get? k =
          (states.getD idx ⟨false, []⟩).next.get? k) ∧
      (∀ k, pos ≤ k → ∀ a ts, (states.getD idx ⟨false, []⟩).next.get? k = some (a, ts) →
        ∃ emitted : List TATransition,
          ((scanEntries ops idx n pos rem states mb nm).1.getD idx ⟨false, []⟩).next.get? k =
            some (a, ts ++ emitted) ∧
          ∀ tr' ∈ emitted, ∃ t ∈ ts,
            ops.matchTransition n t = true ∧
            isWeaker (relaxedGuardOf ops n t) t.guard = true ∧
            isWeaker t.guard (relaxedGuardOf ops n t) = false ∧
            tr' = ⟨t.target, t.resetVars, relaxedGuardOf ops n t⟩) := by
  intro rem
  induction rem with
  | zero =>
    intro pos states mb nm
    exact ⟨fun j _ => rfl, fun k _ => rfl,
      fun k _ a ts hk => ⟨[], by rw [List.append_nil]; exact hk, by simp⟩⟩
  | succ rem ih =>
    intro pos states mb nm
    rw [scanEntries]
    cases hget : (states.getD idx ⟨false, []⟩).next.get? pos with
    | none =>
      exact ⟨fun j _ => rfl, fun k _ => rfl,
        fun k _ a ts hk => ⟨[], by rw [List.append_nil]; exact hk, by simp⟩⟩
    | some p =>
      obtain ⟨a, ts⟩ := p
      dsimp only
      have hlt : idx < states.length := by
        by_contra hge
        rw [Nat.not_lt] at hge
        rw [List.getD_eq_default _ _ hge] at hget
        cases hget
      have hplen : pos < (states.getD idx ⟨false, []⟩).next.length := by
        by_contra hge
        rw [Nat.not_lt] at hge
        rw [List.get?_eq_none.mpr hge] at hget
        cases hget
      generalize hr : scanTransitions ops states n (ops.successor n a) ts mb nm = r
      generalize hst : states.set idx
        { isMatch := (states.getD idx ⟨false, []⟩).isMatch,
          next := (states.getD idx ⟨false, []⟩).next.set pos (a, ts ++ r.1) } = states'
      have hlen' : idx < states'.length := by
        rw [← hst, List.length_set]
        exact hlt
      have hgetD' : states'.getD idx ⟨false, []⟩ =
          { isMatch := (states.getD idx ⟨false, []⟩).isMatch,
            next := (states.getD idx ⟨false, []⟩).next.set pos (a, ts ++ r.1) } := by
        rw [← hst]
        exact getD_set_self states idx _ _ hlt
      refine ⟨?_, ?_, ?_⟩
      · intro j hj
        rw [(ih (pos + 1) states' r.2.2.1 r.2.2.2).1 j hj, ← hst]
        exact List.get?_set_ne _ _ (Ne.symm hj)
      · intro k hk
        rw [(ih (pos + 1) states' r.2.2.1 r.2.2.2).2.1 k (by omega), hgetD']
        exact List.get?_set_ne _ _ (by omega)
      · intro k hk a' ts' hsome
        rcases Nat.eq_or_lt_of_le hk with heq | hlt'
        · subst heq
          rw [hget] at hsome
          injection hsome with hsome
          injection hsome with ha hts
          subst ha
          subst hts
          refine ⟨r.1, ?_, ?_⟩
          · rw [(ih (pos + 1) states' r.2.2.1 r.2.2.2).2.1 pos (by omega), hgetD']
            exact List.get?_set_eq_of_lt _ hplen
          · intro tr' htr
            rw [← hr] at htr
            exact scanTransitions_emitted ops states n (ops.successor n a) ts mb nm tr' htr
        · have hsome' : (states'.getD idx ⟨false, []⟩).next.get? k = some (a', ts') := by
            rw [hgetD']
            dsimp only
            rw [List.get?_set_ne _ _ (by omega)]
            exact hsome
          exact (ih (pos + 1) states' r.2.2.1 r.2.2.2).2.2 k (by omega) a' ts' hsome'

/-- C9 counterexample.  One accepted relaxation of a transition from state 0
to state 1: after the scan, the synthesized transition
`(t.target, t.resetVars, relaxedGuard)` has been appended to the SCANNED
state 0's per-action transition list, while the target state 1's transition
table is unchanged — the staged transitions are not added to the target
state's table. -/
theorem scanStateOnce_appends_to_source :
    ((scanStateOnce (constOps [⟨0, Odr.le, 2⟩] 5 [])
        [⟨false, [('a', [⟨1, [], [⟨0, Odr.le, 1⟩]⟩])]⟩, ⟨true, []⟩] 0 0 true).1.get? 1 =
      some ⟨true, []⟩) ∧
    ((scanStateOnce (constOps [⟨0, Odr.le, 2⟩] 5 [])
        [⟨false, [('a', [⟨1, [], [⟨0, Odr.le, 1⟩]⟩])]⟩, ⟨true, []⟩] 0 0 true).1.get? 0 =
      some ⟨false, [('a', [⟨1, [], [⟨0, Odr.le, 1⟩]⟩, ⟨1, [], [⟨0, Odr.le, 2⟩]⟩])]⟩) := by
  decide

/-- C9 (amended).  During the per-action scan of `run()`, each accepted
relaxation synthesizes `(t.target, t.resetVars, relaxedGuard)` into a side
buffer which is appended to the scanned state's per-action transition list
only after that action's scan completes: every other state is untouched,
and each action entry of the scanned state keeps its original transitions
unchanged as a prefix (the matched transition `t` is never mutated),
followed by the staged transitions, each of which comes from a matched
transition that passed the strict two-sided `isWeaker` test. -/
theorem scanStateOnce_stages_after_scan {N : Type} (ops : NeighborOps N)
    (states : List TAState) (idx : Nat) (n : N) (nm : Bool) :
    (∀ j, j ≠ idx → (scanStateOnce ops states idx n nm).1.get? j = states.get? j) ∧
    (∀ k a ts, (states.getD idx ⟨false, []⟩).next.get? k = some (a, ts) →
      ∃ emitted : List TATransition,
        ((scanStateOnce ops states idx n nm).1.getD idx ⟨false, []⟩).next.get? k =
          some (a, ts ++ emitted) ∧
        ∀ tr' ∈ emitted, ∃ t ∈ ts,
          ops.matchTransition n t = true ∧
          isWeaker (relaxedGuardOf ops n t) t.guard = true ∧
          isWeaker t.guard (relaxedGuardOf ops n t) = false ∧
          tr' = ⟨t.target, t.resetVars, relaxedGuardOf ops n t⟩) := by
  obtain ⟨h1, h2, h3⟩ := scanEntries_frame ops idx n
    ((states.getD idx ⟨false, []⟩).next.length) 0 states false nm
  exact ⟨h1, fun k a ts hk => h3 k (Nat.zero_le k) a ts hk⟩

/-- Witness for C9: the concrete scan of state 0 stages exactly the relaxed
copy of its single transition after the original. -/
theorem scanStateOnce_stages_after_scan_witness :
    ∃ emitted : List TATransition,
      (((scanStateOnce (constOps [⟨0, Odr.le, 2⟩] 5 [])
          [⟨false, [('a', [⟨1, [], [⟨0, Odr.le, 1⟩]⟩])]⟩, ⟨true, []⟩] 0 0
          true).1.getD 0 ⟨false, []⟩).next.get? 0 =
        some ('a', [⟨1, [], [⟨0, Odr.le, 1⟩]⟩] ++ emitted)) ∧
      ∀ tr' ∈ emitted, ∃ t ∈ [(⟨1, [], [⟨0, Odr.le, 1⟩]⟩ : TATransition)],
        (constOps [⟨0, Odr.le, 2⟩] 5 []).matchTransition 0 t = true ∧
        isWeaker (relaxedGuardOf (constOps [⟨0, Odr.le, 2⟩] 5 []) 0 t) t.guard = true ∧
        isWeaker t.guard (relaxedGuardOf (constOps [⟨0, Odr.le, 2⟩] 5 []) 0 t) = false ∧
        tr' = ⟨t.target, t.resetVars, relaxedGuardOf (constOps [⟨0, Odr.le, 2⟩] 5 []) 0 t⟩ :=
  (scanStateOnce_stages_after_scan (constOps [⟨0, Odr.le, 2⟩] 5 [])
    [⟨false, [('a', [⟨1, [], [⟨0, Odr.le, 1⟩]⟩])]⟩, ⟨true, []⟩] 0 0 true).2
    0 'a' [⟨1, [], [⟨0, Odr.le, 1⟩]⟩] (by decide)

/-- Semantics of a lower bound `(c, strict)` at a value: `c < q` when strict,
`c ≤ q` otherwise. -/
def LowerOK : Int × Bool → ℚ → Prop
  | (c, true), q => (c : ℚ) < q
  | (c, false), q => (c : ℚ) ≤ q

/-- Semantics of an upper bound at a value (`none` is unbounded). -/
def UpperOK : Option (Int × Bool) → ℚ → Prop
  | none, _ => True
  | some (c, true), q => q < (c : ℚ)
  | some (c, false), q => q ≤ (c : ℚ)

/-- The tighter of two lower bounds holds at a value iff both do. -/
theorem tighterLower_ok (a b : Int × Bool) (q : ℚ) :
    LowerOK (tighterLower a b) q ↔ LowerOK a q ∧ LowerOK b q := by
  obtain ⟨ac, as⟩ := a
  obtain ⟨bc, bs⟩ := b
  dsimp only [tighterLower]
  rcases lt_trichotomy ac bc with h | h | h
  · rw [if_pos h]
    have hc : (ac : ℚ) < (bc : ℚ) := by exact_mod_cast h
    cases as <;> cases bs <;> simp only [LowerOK] <;>
      exact ⟨fun hh => ⟨by linarith, by linarith⟩, fun hh => by obtain ⟨h1, h2⟩ := hh; linarith⟩
  · subst h
    rw [if_neg (lt_irrefl ac), if_neg (lt_irrefl ac)]
    cases as <;> cases bs <;>
      simp only [LowerOK, Bool.or_false, Bool.or_true, Bool.true_or, Bool.false_or] <;>
      exact ⟨fun hh => ⟨by linarith, by linarith⟩, fun hh => by obtain ⟨h1, h2⟩ := hh; linarith⟩
  · rw [if_neg (by omega), if_pos h]
    have hc : (bc : ℚ) < (ac : ℚ) := by exact_mod_cast h
    cases as <;> cases bs <;> simp only [LowerOK] <;>
      exact ⟨fun hh => ⟨by linarith, by linarith⟩, fun hh => by obtain ⟨h1, h2⟩ := hh; linarith⟩

/-- The tighter of two upper bounds holds at a value iff both do. -/
theorem tighterUpper_ok (a b : Int × Bool) (q : ℚ) :
    UpperOK (some (tighterUpper a b)) q ↔ UpperOK (some a) q ∧ UpperOK (some b) q := by
  obtain ⟨ac, as⟩ := a
  obtain ⟨bc, bs⟩ := b
  dsimp only [tighterUpper]
  rcases lt_trichotomy ac bc with h | h | h
  · rw [if_pos h]
    have hc : (ac : ℚ) < (bc : ℚ) := by exact_mod_cast h
    cases as <;> cases bs <;> simp only [UpperOK] <;>
      exact ⟨fun hh => ⟨by linarith, by linarith⟩, fun hh => by obtain ⟨h1, h2⟩ := hh; linarith⟩
  · subst h
    rw [if_neg (lt_irrefl ac), if_neg (lt_irrefl ac)]
    cases as <;> cases bs <;>
      simp only [UpperOK, Bool.or_false, Bool.or_true, Bool.true_or, Bool.false_or] <;>
      exact ⟨fun hh => ⟨by linarith, by linarith⟩, fun hh => by obtain ⟨h1, h2⟩ := hh; linarith⟩
  · rw [if_neg (by omega), if_pos h]
    have hc : (bc : ℚ) < (ac : ℚ) := by exact_mod_cast h
    cases as <;> cases bs <;> simp only [UpperOK] <;>
      exact ⟨fun hh => ⟨by linarith, by linarith⟩, fun hh => by obtain ⟨h1, h2⟩ := hh; linarith⟩

/-- The lower-bound content of a constraint at a value (`True` for upper
constraints). -/
def Constraint.lowerOK (ct : Constraint) (q : ℚ) : Prop :=
  match ct.odr with
  | .ge => (ct.c : ℚ) ≤ q
  | .gt => (ct.c : ℚ) < q
  | _ => True

/-- The upper-bound content of a constraint at a value (`True` for lower
constraints). -/
def Constraint.upperOK (ct : Constraint) (q : ℚ) : Prop :=
  match ct.odr with
  | .le => q ≤ (ct.c : ℚ)
  | .lt => q < (ct.c : ℚ)
  | _ => True

/-- The folded tightest lower bound holds at a value iff the initial bound
and every lower constraint of the guard on the clock hold there. -/
theorem lowerBound_fold_ok (x : Nat) (q : ℚ) :
    ∀ (g : Guard) (init : Int × Bool),
      LowerOK (g.foldl (fun acc ct =>
        if ct.x = x then
          match ct.odr with
          | .ge => tighterLower acc (ct.c, false)
          | .gt => tighterLower acc (ct.c, true)
          | _ => acc
        else acc) init) q ↔
      (LowerOK init q ∧ ∀ ct ∈ g, ct.x = x → ct.lowerOK q) := by
  intro g
  induction g with
  | nil =>
    intro init
    simp
  | cons ct rest ih =>
    intro init
    rw [List.foldl_cons, ih]
    by_cases hx : ct.x = x
    · rw [if_pos hx]
      rcases hodr : ct.odr with _ | _ | _ | _
      · simp only [hodr, List.forall_mem_cons, Constraint.lowerOK]
        tauto
      · simp only [hodr, List.forall_mem_cons, Constraint.lowerOK]
        tauto
      · simp only [hodr]
        rw [tighterLower_ok]
        simp only [List.forall_mem_cons, Constraint.lowerOK, hodr, LowerOK]
        tauto
      · simp only [hodr]
        rw [tighterLower_ok]
        simp only [List.forall_mem_cons, Constraint.lowerOK, hodr, LowerOK]
        tauto
    · rw [if_neg hx]
      simp only [List.forall_mem_cons]
      tauto

/-- The folded tightest upper bound holds at a value iff the initial bound
and every upper constraint of the guard on the clock hold there. -/
theorem upperBound_fold_ok (x : Nat) (q : ℚ) :
    ∀ (g : Guard) (init : Option (Int × Bool)),
      UpperOK (g.foldl (fun acc ct =>
        if ct.x = x then
          match ct.odr with
          | .lt => some (match acc with
                         | none => (ct.c, true)
                         | some a => tighterUpper a (ct.c, true))
          | .le => some (match acc with
                         | none => (ct.c, false)
                         | some a => tighterUpper a (ct.c, false))
          | _ => acc
        else acc) init) q ↔
      (UpperOK init q ∧ ∀ ct ∈ g, ct.x = x → ct.upperOK q) := by
  intro g
  induction g with
  | nil =>
    intro init
    simp
  | cons ct rest ih =>
    intro init
    rw [List.foldl_cons, ih]
    by_cases hx : ct.x = x
    · rw [if_pos hx]
      rcases hodr : ct.odr with _ | _ | _ | _
      · cases init with
        | none =>
          simp only [hodr, List.forall_mem_cons, Constraint.upperOK, UpperOK]
          tauto
        | some a =>
          simp only [hodr]
          rw [tighterUpper_ok]
          simp only [List.forall_mem_cons, Constraint.upperOK, hodr, UpperOK]
          tauto
      · cases init with
        | none =>
          simp only [hodr, List.forall_mem_cons, Constraint.upperOK, UpperOK]
          tauto
        | some a =>
          simp only [hodr]
          rw [tighterUpper_ok]
          simp only [List.forall_mem_cons, Constraint.upperOK, hodr, UpperOK]
          tauto
      · simp only [hodr, List.forall_mem_cons, Constraint.upperOK]
        tauto
      · simp only [hodr, List.forall_mem_cons, Constraint.upperOK]
        tauto
    · rw [if_neg hx]
      simp only [List.forall_mem_cons]
      tauto

/-- `lowerBound` holds at a value iff the value is non-negative and every
lower constraint of the guard on the clock holds there. -/
theorem lowerBound_ok (g : Guard) (x : Nat) (q : ℚ) :
    LowerOK (lowerBound g x) q ↔ ((0 : ℚ) ≤ q ∧ ∀ ct ∈ g, ct.x = x → ct.lowerOK q) := by
  rw [lowerBound, lowerBound_fold_ok]
  simp [LowerOK]

/-- `upperBound` holds at a value iff every upper constraint of the guard on
the clock holds there. -/
theorem upperBound_ok (g : Guard) (x : Nat) (q : ℚ) :
    UpperOK (upperBound g x) q ↔ (∀ ct ∈ g, ct.x = x → ct.upperOK q) := by
  rw [upperBound, upperBound_fold_ok]
  simp [UpperOK]

/-- A constraint is satisfied iff its lower and upper content hold at the
clock's value. -/
theorem Constraint.sat_iff (ct : Constraint) (v : Nat → ℚ) :
    ct.sat v ↔ (ct.lowerOK (v ct.x) ∧ ct.upperOK (v ct.x)) := by
  rcases h : ct.odr with _ | _ | _ | _ <;>
    simp [Constraint.sat, Constraint.lowerOK, Constraint.upperOK, h]

/-- A guard is satisfied at a non-negative valuation iff, for every clock,
the valuation lies within the guard's tightest bounds. -/
theorem satG_iff_bounds (g : Guard) (v : Nat → ℚ) (hv : ∀ i, 0 ≤ v i) :
    satG g v ↔ ∀ x, LowerOK (lowerBound g x) (v x) ∧ UpperOK (upperBound g x) (v x) := by
  constructor
  · intro hs x
    constructor
    · rw [lowerBound_ok]
      refine ⟨hv x, ?_⟩
      intro ct hct hx
      have hh := (Constraint.sat_iff ct v).mp (hs ct hct)
      rw [hx] at hh
      exact hh.1
    · rw [upperBound_ok]
      intro ct hct hx
      have hh := (Constraint.sat_iff ct v).mp (hs ct hct)
      rw [hx] at hh
      exact hh.2
  · intro hb ct hct
    rw [Constraint.sat_iff]
    obtain ⟨hl, hu⟩ := hb ct.x
    rw [lowerBound_ok] at hl
    rw [upperBound_ok] at hu
    exact ⟨hl.2 ct hct rfl, hu ct hct rfl⟩

/-- A guard imposes only the default lower bound on a clock it never
mentions. -/
theorem lowerBound_eq_default (x : Nat) :
    ∀ (g : Guard), (∀ ct ∈ g, ct.x ≠ x) → lowerBound g x = (0, false) := by
  have aux : ∀ (g : Guard) (init : Int × Bool), (∀ ct ∈ g, ct.x ≠ x) →
      g.foldl (fun acc ct =>
        if ct.x = x then
          match ct.odr with
          | .ge => tighterLower acc (ct.c, false)
          | .gt => tighterLower acc (ct.c, true)
          | _ => acc
        else acc) init = init := by
    intro g
    induction g with
    | nil => intro init _; rfl
    | cons ct rest ih =>
      intro init hne
      rw [List.foldl_cons, if_neg (hne ct (List.mem_cons_self ct rest))]
      exact ih init (fun ct' h => hne ct' (List.mem_cons_of_mem ct h))
  intro g hne
  exact aux g (0, false) hne

/-- A guard imposes no upper bound on a clock it never mentions. -/
theorem upperBound_eq_default (x : Nat) :
    ∀ (g : Guard), (∀ ct ∈ g, ct.x ≠ x) → upperBound g x = none := by
  have aux : ∀ (g : Guard) (init : Option (Int × Bool)), (∀ ct ∈ g, ct.x ≠ x) →
      g.foldl (fun acc ct =>
        if ct.x = x then
          match ct.odr with
          | .lt => some (match acc with
                         | none => (ct.c, true)
                         | some a => tighterUpper a (ct.c, true))
          | .le => some (match acc with
                         | none => (ct.c, false)
                         | some a => tighterUpper a (ct.c, false))
          | _ => acc
        else acc) init = init := by
    intro g
    induction g with
    | nil => intro init _; rfl
    | cons ct rest ih =>
      intro init hne
      rw [List.foldl_cons, if_neg (hne ct (List.mem_cons_self ct rest))]
      exact ih init (fun ct' h => hne ct' (List.mem_cons_of_mem ct h))
  intro g hne
  exact aux g none hne

/-- Tightening a lower bound never lowers its constant. -/
theorem tighterLower_fst_ge (a b : Int × Bool) : a.1 ≤ (tighterLower a b).1 := by
  unfold tighterLower
  split_ifs <;> omega

/-- The tightest lower bound's constant is never below the implicit 0. -/
theorem lowerBound_fst_nonneg (g : Guard) (x : Nat) : 0 ≤ (lowerBound g x).1 := by
  have aux : ∀ (g : Guard) (init : Int × Bool), init.1 ≤
      (g.foldl (fun acc ct =>
        if ct.x = x then
          match ct.odr with
          | .ge => tighterLower acc (ct.c, false)
          | .gt => tighterLower acc (ct.c, true)
          | _ => acc
        else acc) init).1 := by
    intro g
    induction g with
    | nil => intro init; exact le_refl _
    | cons ct rest ih =>
      intro init
      rw [List.foldl_cons]
      refine le_trans ?_ (ih _)
      by_cases hx : ct.x = x
      · rw [if_pos hx]
        rcases hodr : ct.odr with _ | _ | _ | _
        · exact le_refl _
        · exact le_refl _
        · exact tighterLower_fst_ge init (ct.c, false)
        · exact tighterLower_fst_ge init (ct.c, true)
      · rw [if_neg hx]
  exact aux g (0, false)

/-- A value inside a non-empty per-clock interval. -/
def pick (l : Int × Bool) (u : Option (Int × Bool)) : ℚ :=
  match u with
  | none => (l.1 : ℚ) + 1
  | some (uc, _) => if l.1 = uc then (l.1 : ℚ) else ((l.1 : ℚ) + (uc : ℚ)) / 2

/-- Unfolding of a successful per-clock interval check. -/
theorem clockSat_elim (l : Int × Bool) (uc : Int) (us : Bool)
    (h : clockSat l (some (uc, us)) = true) :
    l.1 < uc ∨ (l.1 = uc ∧ l.2 = false ∧ us = false) := by
  obtain ⟨lc, ls⟩ := l
  simp only [clockSat, Bool.or_eq_true, Bool.and_eq_true, decide_eq_true_eq,
    Bool.not_eq_true'] at h
  tauto

/-- The picked value lies within the (non-empty) interval. -/
theorem pick_ok (l : Int × Bool) (u : Option (Int × Bool)) (h : clockSat l u = true) :
    LowerOK l (pick l u) ∧ UpperOK u (pick l u) := by
  obtain ⟨lc, ls⟩ := l
  cases u with
  | none =>
    refine ⟨?_, trivial⟩
    cases ls <;> simp only [pick, LowerOK] <;> linarith
  | some b =>
    obtain ⟨uc, us⟩ := b
    rcases clockSat_elim (lc, ls) uc us h with hlt | ⟨heq, hls, hus⟩
    · have hne : lc ≠ uc := ne_of_lt hlt
      have hc : (lc : ℚ) < (uc : ℚ) := by exact_mod_cast hlt
      simp only [pick, if_neg hne]
      constructor
      · cases ls <;> simp only [LowerOK] <;> linarith
      · cases us <;> simp only [UpperOK] <;> linarith
    · subst heq
      subst hls
      subst hus
      simp only [pick, if_pos rfl, LowerOK, UpperOK]
      exact ⟨le_refl _, le_refl _⟩

/-- The picked value is non-negative when the lower constant is. -/
theorem pick_nonneg (l : Int × Bool) (u : Option (Int × Bool))
    (h0 : 0 ≤ l.1) (h : clockSat l u = true) : 0 ≤ pick l u := by
  obtain ⟨lc, ls⟩ := l
  have hc : (0 : ℚ) ≤ (lc : ℚ) := by exact_mod_cast h0
  cases u with
  | none =>
    simp only [pick]
    linarith
  | some b =>
    obtain ⟨uc, us⟩ := b
    rcases clockSat_elim (lc, ls) uc us h with hlt | ⟨heq, -, -⟩
    · have hne : lc ≠ uc := ne_of_lt hlt
      have hcc : (lc : ℚ) < (uc : ℚ) := by exact_mod_cast hlt
      simp only [pick, if_neg hne]
      linarith
    · subst heq
      simpa [pick] using h0

/-- An inhabited per-clock interval passes the non-emptiness check. -/
theorem clockSat_of_ok (l : Int × Bool) (u : Option (Int × Bool)) (q : ℚ)
    (hl : LowerOK l q) (hu : UpperOK u q) : clockSat l u = true := by
  obtain ⟨lc, ls⟩ := l
  cases u with
  | none => rfl
  | some b =>
    obtain ⟨uc, us⟩ := b
    simp only [clockSat, Bool.or_eq_true, Bool.and_eq_true, decide_eq_true_eq,
      Bool.not_eq_true']
    rcases lt_trichotomy lc uc with h | h | h
    · exact Or.inl h
    · subst h
      cases ls <;> cases us <;> simp only [LowerOK, UpperOK] at hl hu
      · exact Or.inr ⟨⟨rfl, rfl⟩, rfl⟩
      · exact absurd (lt_of_le_of_lt hl hu) (lt_irrefl _)
      · exact absurd (lt_of_lt_of_le hl hu) (lt_irrefl _)
      · exact absurd (lt_trans hl hu) (lt_irrefl _)
      
    · exfalso
      have hc : (uc : ℚ) < (lc : ℚ) := by exact_mod_cast h
      cases ls <;> cases us <;> simp only [LowerOK, UpperOK] at hl hu <;> linarith

/-- A clock outside `clocksOf g` appears in no constraint of `g`. -/
theorem clocksOf_not_mem (g : Guard) (x : Nat) (h : x ∉ clocksOf g) :
    ∀ ct ∈ g, ct.x ≠ x := by
  intro ct hct hx
  exact h (by rw [clocksOf, List.mem_dedup]; exact List.mem_map.mpr ⟨ct, hct, hx⟩)

/-- The modelled `satisfiable` agrees with the spec's semantics: the
conjunction has a solution over non-negative clock values. -/
theorem satisfiable_iff (g : Guard) :
    satisfiable g = true ↔ ∃ v : Nat → ℚ, (∀ i, 0 ≤ v i) ∧ satG g v := by
  constructor
  · intro hsat
    have hcs : ∀ x, clockSat (lowerBound g x) (upperBound g x) = true := by
      intro x
      by_cases hx : x ∈ clocksOf g
      · rw [satisfiable, List.all_eq_true] at hsat
        exact hsat x hx
      · rw [lowerBound_eq_default x g (clocksOf_not_mem g x hx),
            upperBound_eq_default x g (clocksOf_not_mem g x hx)]
        rfl
    have hnn : ∀ i, 0 ≤ pick (lowerBound g i) (upperBound g i) :=
      fun i => pick_nonneg _ _ (lowerBound_fst_nonneg g i) (hcs i)
    refine ⟨fun x => pick (lowerBound g x) (upperBound g x), hnn, ?_⟩
    rw [satG_iff_bounds g _ hnn]
    intro x
    exact pick_ok _ _ (hcs x)
  · rintro ⟨v, hv, hs⟩
    rw [satisfiable, List.all_eq_true]
    intro x _
    have hb := (satG_iff_bounds g v hv).mp hs x
    exact clockSat_of_ok _ _ (v x) hb.1 hb.2

/-- A constraint entailed by a guard's tightest bounds holds at any value
within those bounds. -/
theorem satCt_of_impliedBy (g : Guard) (ct : Constraint) (q : ℚ)
    (hi : impliedBy g ct = true)
    (hl : LowerOK (lowerBound g ct.x) q)
    (hu : UpperOK (upperBound g ct.x) q) :
    ct.lowerOK q ∧ ct.upperOK q := by
  rcases hodr : ct.odr with _ | _ | _ | _ <;>
    simp only [impliedBy, hodr] at hi <;>
    simp only [Constraint.lowerOK, Constraint.upperOK, hodr]
  · -- lt
    refine ⟨trivial, ?_⟩
    cases hub : upperBound g ct.x with
    | none => rw [hub] at hi; cases hi
    | some b =>
      obtain ⟨uc, us⟩ := b
      rw [hub] at hi hu
      simp only [impliesUpper, Bool.or_eq_true, Bool.and_eq_true, Bool.or_false,
        Bool.not_true, decide_eq_true_eq] at hi
      rcases hi with h | ⟨heq, hus⟩
      · have hc : (uc : ℚ) < (ct.c : ℚ) := by exact_mod_cast h
        cases us <;> simp only [UpperOK] at hu <;> linarith
      · subst heq
        subst hus
        simp only [UpperOK] at hu
        exact hu
  · -- le
    refine ⟨trivial, ?_⟩
    cases hub : upperBound g ct.x with
    | none => rw [hub] at hi; cases hi
    | some b =>
      obtain ⟨uc, us⟩ := b
      rw [hub] at hi hu
      simp only [impliesUpper, Bool.or_eq_true, Bool.and_eq_true, Bool.or_true,
        Bool.not_false, Bool.and_true, decide_eq_true_eq] at hi
      rcases hi with h | heq
      · have hc : (uc : ℚ) < (ct.c : ℚ) := by exact_mod_cast h
        cases us <;> simp only [UpperOK] at hu <;> linarith
      · subst heq
        cases us <;> simp only [UpperOK] at hu <;> linarith
  · -- ge
    refine ⟨?_, trivial⟩
    rcases hlb : lowerBound g ct.x with ⟨lc, ls⟩
    rw [hlb] at hi hl
    simp only [impliesLower, Bool.or_eq_true, Bool.and_eq_true, Bool.or_true,
      Bool.not_false, Bool.and_true, decide_eq_true_eq] at hi
    rcases hi with h | heq
    · have hc : (ct.c : ℚ) < (lc : ℚ) := by exact_mod_cast h
      cases ls <;> simp only [LowerOK] at hl <;> linarith
    · subst heq
      cases ls <;> simp only [LowerOK] at hl <;> linarith
  · -- gt
    refine ⟨?_, trivial⟩
    rcases hlb : lowerBound g ct.x with ⟨lc, ls⟩
    rw [hlb] at hi hl
    simp only [impliesLower, Bool.or_eq_true, Bool.and_eq_true, Bool.or_false,
      Bool.not_true, decide_eq_true_eq] at hi
    rcases hi with h | ⟨heq, hls⟩
    · have hc : (ct.c : ℚ) < (lc : ℚ) := by exact_mod_cast h
      cases ls <;> simp only [LowerOK] at hl <;> linarith
    · subst heq
      subst hls
      simp only [LowerOK] at hl
      exact hl

/-- A value inside the interval `(l, u)` that exceeds `c`, used to refute a
non-entailed upper-bound constraint. -/
def violUp (l : Int × Bool) (u : Option (Int × Bool)) (c : Int) : ℚ :=
  match u with
  | none => ((max l.1 c : Int) : ℚ) + 1
  | some (uc, _) =>
    if l.1 = uc then (l.1 : ℚ) else (((max l.1 c : Int) : ℚ) + (uc : ℚ)) / 2

/-- A value inside the interval `(l, u)` that stays below `c`, used to refute
a non-entailed lower-bound constraint. -/
def violLow (l : Int × Bool) (u : Option (Int × Bool)) (c : Int) : ℚ :=
  if l.2 then
    (match u with
     | none => ((l.1 : ℚ) + (c : ℚ)) / 2
     | some (uc, _) => ((l.1 : ℚ) + ((min c uc : Int) : ℚ)) / 2)
  else (l.1 : ℚ)

/-- `violUp` lies within the interval, is at least `c` (strictly above `c`
when the interval's upper bound strictly exceeds `c`), and is non-negative. -/
theorem violUp_ok (l : Int × Bool) (u : Option (Int × Bool)) (c : Int)
    (hcs : clockSat l u = true)
    (hub : match u with
           | none => True
           | some (uc, us) => c ≤ uc ∧ (us = true → c < uc)) :
    LowerOK l (violUp l u c) ∧ UpperOK u (violUp l u c) ∧
    (c : ℚ) ≤ violUp l u c ∧
    ((match u with | none => True | some (uc, _) => c < uc) → (c : ℚ) < violUp l u c) ∧
    (0 ≤ l.1 → 0 ≤ violUp l u c) := by
  obtain ⟨lc, ls⟩ := l
  cases u with
  | none =>
    simp only [violUp, UpperOK]
    have h1 : (lc : ℚ) ≤ ((max lc c : Int) : ℚ) := by exact_mod_cast le_max_left lc c
    have h2 : (c : ℚ) ≤ ((max lc c : Int) : ℚ) := by exact_mod_cast le_max_right lc c
    refine ⟨?_, trivial, by linarith, fun _ => by linarith, fun h0 => ?_⟩
    · cases ls <;> simp only [LowerOK] <;> linarith
    · have : (0 : ℚ) ≤ (lc : ℚ) := by exact_mod_cast h0
      linarith
  | some b =>
    obtain ⟨uc, us⟩ := b
    obtain ⟨hcu, hstr⟩ := hub
    have hcuQ : (c : ℚ) ≤ (uc : ℚ) := by exact_mod_cast hcu
    rcases clockSat_elim (lc, ls) uc us hcs with hlt | ⟨heq, hls, hus⟩
    · have hne : lc ≠ uc := ne_of_lt hlt
      have hltQ : (lc : ℚ) < (uc : ℚ) := by exact_mod_cast hlt
      have h1 : (lc : ℚ) ≤ ((max lc c : Int) : ℚ) := by exact_mod_cast le_max_left lc c
      have h2 : (c : ℚ) ≤ ((max lc c : Int) : ℚ) := by exact_mod_cast le_max_right lc c
      have h3 : ((max lc c : Int) : ℚ) ≤ (uc : ℚ) := by
        have : max lc c ≤ uc := max_le (le_of_lt hlt) hcu
        exact_mod_cast this
      simp only [violUp, if_neg hne]
      refine ⟨?_, ?_, by linarith, ?_, fun h0 => ?_⟩
      · cases ls <;> simp only [LowerOK] <;> linarith
      · cases us <;> simp only [UpperOK]
        · linarith
        · have hcu' : c < uc := hstr rfl
          have h3' : ((max lc c : Int) : ℚ) < (uc : ℚ) := by
            have : max lc c < uc := max_lt hlt hcu'
            exact_mod_cast this
          linarith
      · intro hclt
        have : (c : ℚ) < (uc : ℚ) := by exact_mod_cast hclt
        linarith
      · have : (0 : ℚ) ≤ (lc : ℚ) := by exact_mod_cast h0
        linarith
    · subst heq
      subst hls
      subst hus
      simp only [violUp, LowerOK, UpperOK, if_true]
      refine ⟨le_refl _, le_refl _, hcuQ, fun hclt => ?_, fun h0 => ?_⟩
      · have hq : c < lc := hclt
        exact_mod_cast hq
      · have hq : (0 : ℤ) ≤ lc := h0
        exact_mod_cast hq

/-- `violLow` lies within the interval, is at most `c` (strictly below `c`
when the interval's lower constant is below `c`), and is non-negative. -/
theorem violLow_ok (l : Int × Bool) (u : Option (Int × Bool)) (c : Int)
    (hcs : clockSat l u = true)
    (hlc : l.1 ≤ c)
    (hstr : l.2 = true → l.1 < c) :
    LowerOK l (violLow l u c) ∧ UpperOK u (violLow l u c) ∧
    violLow l u c ≤ (c : ℚ) ∧
    (l.1 < c → violLow l u c < (c : ℚ)) ∧
    (0 ≤ l.1 → 0 ≤ violLow l u c) := by
  obtain ⟨lc, ls⟩ := l
  have hlcQ : (lc : ℚ) ≤ (c : ℚ) := by exact_mod_cast hlc
  cases ls with
  | false =>
    simp only [violLow, if_neg (Bool.false_ne_true), LowerOK]
    refine ⟨le_refl _, ?_, hlcQ, fun h => by exact_mod_cast h, fun h0 => by exact_mod_cast h0⟩
    cases u with
    | none => trivial
    | some b =>
      obtain ⟨uc, us⟩ := b
      rcases clockSat_elim (lc, false) uc us hcs with hlt | ⟨heq, -, hus⟩
      · have : (lc : ℚ) < (uc : ℚ) := by exact_mod_cast hlt
        cases us <;> simp only [UpperOK] <;> linarith
      · subst hus
        simp only [UpperOK]
        exact_mod_cast le_of_eq heq
  | true =>
    have hlcs : lc < c := hstr rfl
    have hlcsQ : (lc : ℚ) < (c : ℚ) := by exact_mod_cast hlcs
    cases u with
    | none =>
      simp only [violLow, LowerOK, UpperOK, if_true]
      refine ⟨by linarith, trivial, by linarith, fun _ => by linarith, fun h0 => ?_⟩
      have hq : (0 : ℤ) ≤ lc := h0
      have : (0 : ℚ) ≤ (lc : ℚ) := by exact_mod_cast hq
      linarith
    | some b =>
      obtain ⟨uc, us⟩ := b
      rcases clockSat_elim (lc, true) uc us hcs with hlt | ⟨-, hcontra, -⟩
      · have hltQ : (lc : ℚ) < (uc : ℚ) := by exact_mod_cast hlt
        have hm1 : (lc : ℚ) < ((min c uc : Int) : ℚ) := by
          have : lc < min c uc := lt_min hlcs hlt
          exact_mod_cast this
        have hm2 : ((min c uc : Int) : ℚ) ≤ (c : ℚ) := by exact_mod_cast min_le_left c uc
        have hm3 : ((min c uc : Int) : ℚ) ≤ (uc : ℚ) := by exact_mod_cast min_le_right c uc
        simp only [violLow, LowerOK, if_true]
        refine ⟨by linarith, ?_, by linarith, fun _ => by linarith, fun h0 => ?_⟩
        · cases us <;> simp only [UpperOK] <;> linarith
        · have hq : (0 : ℤ) ≤ lc := h0
          have : (0 : ℚ) ≤ (lc : ℚ) := by exact_mod_cast hq
          linarith
      · cases hcontra

/-- The modelled `isWeaker` agrees with the spec's semantics: `isWeaker gA gB`
holds iff every non-negative valuation satisfying `gB` also satisfies `gA`. -/
theorem isWeaker_iff (gA gB : Guard) :
    isWeaker gA gB = true ↔
      ∀ v : Nat → ℚ, (∀ i, 0 ≤ v i) → satG gB v → satG gA v := by
  constructor
  · intro hw v hv hs
    rw [isWeaker, Bool.or_eq_true] at hw
    rcases hw with hns | hall
    · rw [Bool.not_eq_true'] at hns
      have := (satisfiable_iff gB).mpr ⟨v, hv, hs⟩
      rw [hns] at this
      cases this
    · intro ct hct
      rw [List.all_eq_true] at hall
      have hi := hall ct hct
      have hb := (satG_iff_bounds gB v hv).mp hs ct.x
      rw [Constraint.sat_iff]
      exact satCt_of_impliedBy gB ct (v ct.x) hi hb.1 hb.2
  · intro hsem
    by_contra hfalse
    rw [Bool.not_eq_true, isWeaker, Bool.or_eq_false_iff] at hfalse
    obtain ⟨hns, hall⟩ := hfalse
    rw [Bool.not_eq_false'] at hns
    have hex : ∃ ct ∈ gA, impliedBy gB ct = false := by
      by_contra hno
      push_neg at hno
      have hT : gA.all (impliedBy gB) = true := by
        rw [List.all_eq_true]
        intro ct hct
        cases h : impliedBy gB ct
        · exact absurd h (hno ct hct)
        · rfl
      rw [hT] at hall
      cases hall
    obtain ⟨ct, hct, hni⟩ := hex
    have hcs : ∀ x, clockSat (lowerBound gB x) (upperBound gB x) = true := by
      intro x
      by_cases hx : x ∈ clocksOf gB
      · rw [satisfiable, List.all_eq_true] at hns
        exact hns x hx
      · rw [lowerBound_eq_default x gB (clocksOf_not_mem gB x hx),
            upperBound_eq_default x gB (clocksOf_not_mem gB x hx)]
        rfl
    have hcsx := hcs ct.x
    have hnn0 := lowerBound_fst_nonneg gB ct.x
    have key : ∃ q0 : ℚ, LowerOK (lowerBound gB ct.x) q0 ∧ UpperOK (upperBound gB ct.x) q0 ∧
        0 ≤ q0 ∧ ¬ (ct.lowerOK q0 ∧ ct.upperOK q0) := by
      rcases hodr : ct.odr with _ | _ | _ | _
      · -- lt : the tightest upper bound of gB does not entail x < c
        simp only [impliedBy, hodr] at hni
        cases hub : upperBound gB ct.x with
        | none =>
          rw [hub] at hcsx
          obtain ⟨k1, k2, k3, -, k5⟩ := violUp_ok (lowerBound gB ct.x) none ct.c hcsx trivial
          refine ⟨violUp (lowerBound gB ct.x) none ct.c, k1, k2, k5 hnn0, ?_⟩
          rintro ⟨-, hup⟩
          rw [Constraint.upperOK, hodr] at hup
          exact absurd hup (not_lt.mpr k3)
        | some b =>
          obtain ⟨uc, us⟩ := b
          rw [hub] at hcsx hni
          have h1 : ¬ uc < ct.c := by
            intro h
            simp [impliesUpper, h] at hni
          have hcu : ct.c ≤ uc := not_lt.mp h1
          have hstr : us = true → ct.c < uc := by
            intro hus
            rcases lt_or_eq_of_le hcu with h | h
            · exact h
            · exfalso
              simp [impliesUpper, h.symm, hus] at hni
          obtain ⟨k1, k2, k3, -, k5⟩ :=
            violUp_ok (lowerBound gB ct.x) (some (uc, us)) ct.c hcsx ⟨hcu, hstr⟩
          refine ⟨violUp (lowerBound gB ct.x) (some (uc, us)) ct.c, k1, k2, k5 hnn0, ?_⟩
          rintro ⟨-, hup⟩
          rw [Constraint.upperOK, hodr] at hup
          exact absurd hup (not_lt.mpr k3)
      · -- le : the tightest upper bound of gB does not entail x ≤ c
        simp only [impliedBy, hodr] at hni
        cases hub : upperBound gB ct.x with
        | none =>
          rw [hub] at hcsx
          obtain ⟨k1, k2, -, k4, k5⟩ := violUp_ok (lowerBound gB ct.x) none ct.c hcsx trivial
          refine ⟨violUp (lowerBound gB ct.x) none ct.c, k1, k2, k5 hnn0, ?_⟩
          rintro ⟨-, hup⟩
          rw [Constraint.upperOK, hodr] at hup
          exact absurd hup (not_le.mpr (k4 trivial))
        | some b =>
          obtain ⟨uc, us⟩ := b
          rw [hub] at hcsx hni
          have h1 : ¬ uc < ct.c := by
            intro h
            simp [impliesUpper, h] at hni
          have h2 : uc ≠ ct.c := by
            intro h
            simp [impliesUpper, h] at hni
          have hcu : ct.c < uc := lt_of_le_of_ne (not_lt.mp h1) (Ne.symm h2)
          obtain ⟨k1, k2, -, k4, k5⟩ :=
            violUp_ok (lowerBound gB ct.x) (some (uc, us)) ct.c hcsx
              ⟨le_of_lt hcu, fun _ => hcu⟩
          refine ⟨violUp (lowerBound gB ct.x) (some (uc, us)) ct.c, k1, k2, k5 hnn0, ?_⟩
          rintro ⟨-, hup⟩
          rw [Constraint.upperOK, hodr] at hup
          exact absurd hup (not_le.mpr (k4 hcu))
      · -- ge : the tightest lower bound of gB does not entail c ≤ x
        simp only [impliedBy, hodr] at hni
        rcases hlb : lowerBound gB ct.x with ⟨lc, ls⟩
        rw [hlb] at hcsx hni hnn0
        have h1 : ¬ ct.c < lc := by
          intro h
          simp [impliesLower, h] at hni
        have h2 : lc ≠ ct.c := by
          intro h
          simp [impliesLower, h] at hni
        have hlt : lc < ct.c := lt_of_le_of_ne (not_lt.mp h1) h2
        obtain ⟨k1, k2, -, k4, k5⟩ :=
          violLow_ok (lc, ls) (upperBound gB ct.x) ct.c hcsx (le_of_lt hlt) (fun _ => hlt)
        refine ⟨violLow (lc, ls) (upperBound gB ct.x) ct.c, k1, k2, k5 hnn0, ?_⟩
        rintro ⟨hlo, -⟩
        rw [Constraint.lowerOK, hodr] at hlo
        exact absurd hlo (not_le.mpr (k4 hlt))
      · -- gt : the tightest lower bound of gB does not entail c < x
        simp only [impliedBy, hodr] at hni
        rcases hlb : lowerBound gB ct.x with ⟨lc, ls⟩
        rw [hlb] at hcsx hni hnn0
        have h1 : ¬ ct.c < lc := by
          intro h
          simp [impliesLower, h] at hni
        have hstr2 : ls = true → lc < ct.c := by
          intro hls
          rcases lt_or_eq_of_le (not_lt.mp h1) with h | h
          · exact h
          · exfalso
            simp [impliesLower, h.symm, hls] at hni
        obtain ⟨k1, k2, k3, -, k5⟩ :=
          violLow_ok (lc, ls) (upperBound gB ct.x) ct.c hcsx (not_lt.mp h1) hstr2
        refine ⟨violLow (lc, ls) (upperBound gB ct.x) ct.c, k1, k2, k5 hnn0, ?_⟩
        rintro ⟨hlo, -⟩
        rw [Constraint.lowerOK, hodr] at hlo
        exact absurd hlo (not_lt.mpr k3)
    obtain ⟨q0, hq1, hq2, hq3, hq4⟩ := key
    have hvx : (fun y => if y = ct.x then q0
        else pick (lowerBound gB y) (upperBound gB y)) ct.x = q0 := by simp
    have hvix : ∀ i, i ≠ ct.x → (fun y => if y = ct.x then q0
        else pick (lowerBound gB y) (upperBound gB y)) i =
          pick (lowerBound gB i) (upperBound gB i) := fun i hi => by simp [hi]
    have hnn : ∀ i, 0 ≤ (fun y => if y = ct.x then q0
        else pick (lowerBound gB y) (upperBound gB y)) i := by
      intro i
      by_cases hi : i = ct.x
      · subst hi
        rw [hvx]
        exact hq3
      · rw [hvix i hi]
        exact pick_nonneg _ _ (lowerBound_fst_nonneg gB i) (hcs i)
    have hsB : satG gB (fun y => if y = ct.x then q0
        else pick (lowerBound gB y) (upperBound gB y)) := by
      rw [satG_iff_bounds _ _ hnn]
      intro x
      by_cases hx : x = ct.x
      · subst hx
        rw [if_pos rfl]
        exact ⟨hq1, hq2⟩
      · rw [if_neg hx]
        exact pick_ok _ _ (hcs x)
    have hctv := hsem _ hnn hsB ct hct
    rw [Constraint.sat_iff] at hctv
    rw [if_pos rfl] at hctv
    exact hq4 hctv

end LearnTA
